import Mathlib

/-!
# Verification of the tibo TI-BASIC optimizer against its specification

Shallow embedding of the parts of the `tokens` (titokens) and
`ti-basic-optimizer` crates exercised by the specification's claims:
the byte-level token model, the tokenizer, the `.8xp` container checksum,
the numeric-literal model and its reconstruction strategies, the
shunting-yard expression builder, the block-failure-path analysis and the
label-name optimization pass.

Conventions:
* machine integers are `Nat`/`Int` with explicit `% 2 ^ w` where the Rust
  code relies on wrapping;
* Rust panics and `todo!()`s are modelled as `Option.none` or an explicit
  `panic` constructor of a result type;
* `BTreeMap`s are modelled as association lists sorted by key.
-/

namespace Tibo

/-! ## Token model (`tokens/src/lib.rs`) -/

/-- `Token` from `tokens/src/lib.rs`: a one-byte or two-byte opcode.
Bytes are `Nat`s below 256. -/
inductive Token where
| oneByte (a : Nat)
| twoByte (a b : Nat)
deriving DecidableEq, Repr

/-- `Token::is_numeric`: one-byte digit range `0x30..=0x39`. -/
def Token.isNumeric : Token → Bool
| .oneByte a => 0x30 ≤ a && a ≤ 0x39
| .twoByte _ _ => false

/-- `Token::is_alpha`: one-byte uppercase letters plus theta, `0x41..=0x5B`. -/
def Token.isAlpha : Token → Bool
| .oneByte a => 0x41 ≤ a && a ≤ 0x5B
| .twoByte _ _ => false

/-- `Token::byte`: least significant byte of the token. -/
def Token.byte : Token → Nat
| .oneByte a => a
| .twoByte _ b => b

/-- The match guard of `Tokens::from_bytes`: first bytes that start a
two-byte token (`0x5C..=0x5E | 0x60..=0x63 | 0x7E | 0xAA | 0xBB | 0xEF`). -/
def isTwoByteLead (b : Nat) : Bool :=
  (0x5C ≤ b && b ≤ 0x5E) || (0x60 ≤ b && b ≤ 0x63) ||
    b == 0x7E || b == 0xAA || b == 0xBB || b == 0xEF

/-- `Tokens::from_bytes` (`tokens/src/lib.rs`): pair up two-byte tokens by
their lead byte.  The Rust code calls `iter.next().unwrap()` for the second
byte of a two-byte token; the panic on a missing second byte is modelled as
`none`. -/
def fromBytes : List Nat → Option (List Token)
| [] => some []
| b :: rest =>
  if isTwoByteLead b then
    match rest with
    | [] => none
    | c :: rest2 => (fromBytes rest2).map (Token.twoByte b c :: ·)
  else
    (fromBytes rest).map (Token.oneByte b :: ·)

/-- A byte slice ends with a *bare* two-byte lead byte when the greedy
left-to-right pairing of `Tokens::from_bytes` reaches the final byte as the
start of a token and that byte is a two-byte lead byte. -/
def endsWithBareLead : List Nat → Bool
| [] => false
| [b] => isTwoByteLead b
| b :: c :: rest =>
  if isTwoByteLead b then endsWithBareLead rest else endsWithBareLead (c :: rest)

/-! ## `.8xp` container checksum (`tokens/src/ti_connect_file.rs`) -/

/-- `u16::wrapping_add`. -/
def wrap16 (a b : Nat) : Nat := (a + b) % 65536

/-- The fields of `TIProgram` relevant to the checksum claim.
`token_data_length` and `checksum` are `u16`, `data` is the raw token
byte vector. -/
structure TIProgram where
  tokenDataLength : Nat
  data : List Nat
  checksum : Nat
deriving DecidableEq, Repr

/-- `TIProgram::checksum`: `token_data_length` wrapping-added to the
`u16`-wrapping sum of the data bytes. -/
def TIProgram.checksumFn (p : TIProgram) : Nat :=
  wrap16 p.tokenDataLength (p.data.foldl (fun a x => wrap16 a x) 0)

/-- The `deku` `update` attributes of `TIProgram`: `token_data_length` is set
to `data.len()` and `checksum` to `self.checksum()` (the other updated fields
are omitted as no claim reads them).  The `u16` stores wrap mod `2 ^ 16`. -/
def TIProgram.update (p : TIProgram) : TIProgram :=
  let p1 : TIProgram := ⟨p.data.length % 65536, p.data, p.checksum⟩
  ⟨p1.tokenDataLength, p1.data, p1.checksumFn⟩

/-- Little-endian byte serialization of a `u16` field, per the struct-level
`#[deku(endian = "little")]` attribute on `TIProgram`. -/
def u16LeBytes (c : Nat) : List Nat := [c % 256, c / 256 % 256]

/-! ### Helper lemmas for the checksum -/

theorem foldl_wrap16 (l : List Nat) (a : Nat) :
    l.foldl (fun x y => wrap16 x y) a % 65536 = (a + l.sum) % 65536 := by
  induction l generalizing a with
  | nil => simp
  | cons b t ih =>
    simp only [List.foldl_cons, List.sum_cons]
    rw [ih]
    simp [wrap16, Nat.mod_add_mod, Nat.add_assoc]

theorem wrap16_lt (a b : Nat) : wrap16 a b < 65536 := by
  exact Nat.mod_lt _ (by norm_num)

theorem foldl_wrap16_lt (l : List Nat) (a : Nat) (h : a < 65536) :
    l.foldl (fun x y => wrap16 x y) a < 65536 := by
  induction l generalizing a with
  | nil => simpa
  | cons b t ih => exact ih _ (wrap16_lt a b)

/-! ### Claim theorems: C10 and C9 -/

/-- C10 counterexample: the claim asserts that `Tokens::from_bytes` panics on
any slice whose final byte is one of the two-byte lead bytes; but
`[0xBB, 0x5C]` ends in the lead byte `0x5C` and `from_bytes` succeeds on it
(the final byte is consumed as the second byte of the `0xBB`-led token). -/
theorem fromBytes_final_lead_byte_no_panic :
    (fromBytes [0xBB, 0x5C]).isSome = true ∧ isTwoByteLead 0x5C = true := by
  constructor
  · rfl
  · rfl

/-- C10 (amended): `Tokens::from_bytes` returns a token list exactly for the
byte slices that do not end with a *bare* two-byte lead byte (one reached by
the greedy pairing as the start of a token); on slices that do end with a
bare lead byte the `unwrap` of the missing second byte panics (modelled as
`none`) instead of returning an error. -/
theorem fromBytes_total_iff_no_bare_lead (bs : List Nat) :
    (fromBytes bs).isSome ↔ endsWithBareLead bs = false := by
  induction bs using endsWithBareLead.induct with
  | case1 =>
    simp [fromBytes, endsWithBareLead]
  | case2 b =>
    by_cases h : isTwoByteLead b
    · simp [fromBytes, endsWithBareLead, h]
    · simp [fromBytes, endsWithBareLead, h]
  | case3 b c rest h ih =>
    simpa [fromBytes, endsWithBareLead, h] using ih
  | case4 b c rest h ih =>
    simpa [fromBytes, endsWithBareLead, h] using ih

/-- C9: after a `deku` update, the `checksum` field of a `TIProgram` equals
the 16-bit token-data length plus the sum of all token data bytes, modulo
`2 ^ 16`, and its little-endian serialization stores the low byte first. -/
theorem tiprogram_checksum_spec (p : TIProgram) :
    p.update.checksum = (p.update.tokenDataLength + p.data.sum) % 65536 ∧
    u16LeBytes p.update.checksum =
      [p.update.checksum % 256, p.update.checksum / 256] := by
  have hchk : p.update.checksum = (p.data.length + p.data.sum) % 65536 := by
    show wrap16 (p.data.length % 65536) (p.data.foldl (fun a x => wrap16 a x) 0)
      = (p.data.length + p.data.sum) % 65536
    have h0 : p.data.foldl (fun a x => wrap16 a x) 0 % 65536
        = (0 + p.data.sum) % 65536 := foldl_wrap16 p.data 0
    have h2 : p.data.foldl (fun a x => wrap16 a x) 0 < 65536 :=
      foldl_wrap16_lt p.data 0 (by norm_num)
    have h1 : p.data.foldl (fun a x => wrap16 a x) 0 = p.data.sum % 65536 := by
      rw [← Nat.mod_eq_of_lt h2]
      simpa using h0
    rw [h1]
    unfold wrap16
    omega
  constructor
  · rw [hchk]
    show (p.data.length + p.data.sum) % 65536
      = (p.data.length % 65536 + p.data.sum) % 65536
    omega
  · have hlt : p.update.checksum < 65536 := by
      rw [hchk]; exact Nat.mod_lt _ (by norm_num)
    unfold u16LeBytes
    have : p.update.checksum / 256 < 256 := by omega
    rw [Nat.mod_eq_of_lt this]

/-! ## Tokenizer (`tokens/src/tokenizer.rs`)

`Tokenizer::new` walks `xmlparse::DATA` once: for each token it inserts the
accessible spelling into `names` (a `BTreeMap<Token, String>`, later inserts
overwriting earlier ones) and into the trie (keyed by the accessible
spelling), and finally inserts the extra trie entry `"\r\n" → 0x3F`. -/

/-- One row of the token sheet as consumed by `Tokenizer::new`: a token and
its accessible (ASCII) spelling at the active version and language.

Modelled from the spec: the token sheet itself (`tokens/8X.xml`, read through
`xmlparse::DATA`) is an external collaborator that is not part of the core
sources; §6 describes it as a table mapping each opcode to its spellings. -/
structure SheetEntry where
  tok : Token
  accessible : List Char
deriving DecidableEq, Repr

/-- The `names : BTreeMap<Token, String>` built by `Tokenizer::new`:
`BTreeMap::insert` overwrites, so the lookup returns the accessible spelling
of the *last* sheet entry carrying the token. -/
def namesLookup (sheet : List SheetEntry) (t : Token) : Option (List Char) :=
  (sheet.reverse.find? (fun e => e.tok == t)).map SheetEntry.accessible

/-- The entries of the tokenizer's trie: every accessible spelling of the
sheet, plus the hardcoded `trie.insert("\r\n", Token::OneByte(0x3F))` from
`Tokenizer::new`. -/
def trieEntries (sheet : List SheetEntry) : List (List Char × Token) :=
  sheet.map (fun e => (e.accessible, e.tok)) ++
    [([Char.ofNat 13, Char.ofNat 10], Token.oneByte 0x3F)]

/-- `radix_trie`'s `get_ancestor` as used by `Tokenizer::tokenize`: the entry
with the longest key that is a prefix of the remaining text. -/
def getAncestor (entries : List (List Char × Token)) (text : List Char) :
    Option (List Char × Token) :=
  entries.foldl
    (fun best e =>
      if e.1.isPrefixOf text then
        match best with
        | none => some e
        | some b => if b.1.length < e.1.length then some e else some b
      else best)
    none

/-- The loop of `Tokenizer::tokenize`: greedily consume the longest matching
trie key at the current position; an unmatched position yields `Err(())`
(here `none`).  `fuel` bounds the recursion; `text.length` steps always
suffice because each match consumes at least one character (a zero-length
key would make the Rust loop spin forever; that case is mapped to `none`
and never arises for a sheet without empty spellings). -/
def tokenizeGo (entries : List (List Char × Token)) :
    Nat → List Char → Option (List Token)
| _, [] => some []
| 0, _ :: _ => none
| fuel + 1, c :: cs =>
  match getAncestor entries (c :: cs) with
  | none => none
  | some (k, t) =>
    if k.length == 0 then none
    else (tokenizeGo entries fuel ((c :: cs).drop k.length)).map (t :: ·)

/-- `Tokenizer::tokenize`, token list only (the boundary table is not needed
by any claim). -/
def tokenize (sheet : List SheetEntry) (text : List Char) :
    Option (List Token) :=
  tokenizeGo (trieEntries sheet) text.length text

/-- Lower-case hex digit, as produced by Rust's `{:x}` formatting. -/
def hexDigitChar (n : Nat) : Char :=
  if n < 10 then Char.ofNat (48 + n) else Char.ofNat (87 + n)

/-- Two-digit lower-case hex rendering of a byte (`{:0>2x}`). -/
def byteHex (b : Nat) : List Char := [hexDigitChar (b / 16 % 16), hexDigitChar (b % 16)]

/-- `Token::string_escaped`: `\x{..}` fallback spelling. -/
def Token.stringEscaped : Token → List Char
| .oneByte a =>
  [Char.ofNat 92, Char.ofNat 120, Char.ofNat 123] ++ byteHex a ++ [Char.ofNat 125]
| .twoByte a b =>
  [Char.ofNat 92, Char.ofNat 120, Char.ofNat 123] ++ byteHex a ++ byteHex b ++
    [Char.ofNat 125]

/-- `Tokenizer::stringify`, text only: concatenate each token's `names`
entry, falling back to `string_escaped`. -/
def stringify (sheet : List SheetEntry) (tokens : List Token) : List Char :=
  (tokens.map (fun t => (namesLookup sheet t).getD t.stringEscaped)).flatten

/-- Modelled from the spec: a concrete fragment of the token sheet for
witnesses.  The newline token `0x3F` has a one-character accessible spelling
(the tokenizer's own unit test pins `boundaries.single(0) = 0..1` for it);
the letter tokens spell themselves. -/
def sheetModel : List SheetEntry :=
  [⟨Token.oneByte 0x3F, [Char.ofNat 10]⟩,
   ⟨Token.oneByte 0x41, ['A']⟩,
   ⟨Token.oneByte 0x42, ['B']⟩]

/-! ### Helper lemmas for the tokenizer -/

theorem getAncestor_spec (text : List Char)
    (entries : List (List Char × Token)) (p : List Char × Token)
    (h : getAncestor entries text = some p) :
    p ∈ entries ∧ p.1.isPrefixOf text = true := by
  suffices H : ∀ (es : List (List Char × Token))
      (acc : Option (List Char × Token)),
      es.foldl
        (fun best e =>
          if e.1.isPrefixOf text then
            match best with
            | none => some e
            | some b => if b.1.length < e.1.length then some e else some b
          else best)
        acc = some p →
      (p ∈ es ∧ p.1.isPrefixOf text = true) ∨ acc = some p by
    rcases H entries none h with h1 | h2
    · exact h1
    · exact absurd h2 (by simp)
  intro es
  induction es with
  | nil => intro acc h; right; simpa using h
  | cons e es ih =>
    intro acc h
    simp only [List.foldl_cons] at h
    rcases ih _ h with h1 | h2
    · exact Or.inl ⟨List.mem_cons_of_mem _ h1.1, h1.2⟩
    · by_cases hpre : e.1.isPrefixOf text = true
      · simp only [hpre, if_true] at h2
        cases acc with
        | none =>
          have he : e = p := Option.some.inj h2
          subst he
          exact Or.inl ⟨List.mem_cons_self _ _, hpre⟩
        | some b =>
          by_cases hlen : b.1.length < e.1.length
          · simp only [if_pos hlen] at h2
            have he : e = p := Option.some.inj h2
            subst he
            exact Or.inl ⟨List.mem_cons_self _ _, hpre⟩
          · simp only [if_neg hlen] at h2
            exact Or.inr h2
      · simp only [hpre, if_false] at h2
        exact Or.inr h2

theorem tokenizeGo_roundtrip (sheet : List SheetEntry)
    (hnames : ∀ e ∈ sheet, namesLookup sheet e.tok = some e.accessible) :
    ∀ (fuel : Nat) (text : List Char) (toks : List Token),
      Char.ofNat 13 ∉ text →
      tokenizeGo (trieEntries sheet) fuel text = some toks →
      stringify sheet toks = text := by
  intro fuel
  induction fuel with
  | zero =>
    intro text toks hcr h
    cases text with
    | nil =>
      simp only [tokenizeGo] at h
      cases h
      simp [stringify]
    | cons c cs => exact absurd h (by simp [tokenizeGo])
  | succ n ih =>
    intro text toks hcr h
    cases text with
    | nil =>
      simp only [tokenizeGo] at h
      cases h
      simp [stringify]
    | cons c cs =>
      rw [tokenizeGo] at h
      cases hga : getAncestor (trieEntries sheet) (c :: cs) with
      | none => rw [hga] at h; exact absurd h (by simp)
      | some p =>
        obtain ⟨k, t⟩ := p
        simp only [hga] at h
        by_cases hk0 : (k.length == 0) = true
        · simp only [if_pos hk0] at h
          exact absurd h (by simp)
        simp only [if_neg hk0] at h
        obtain ⟨rest, hrest, htoks⟩ := Option.map_eq_some'.mp h
        obtain ⟨hmem, hpre⟩ := getAncestor_spec (c :: cs) _ _ hga
        have hkpre : k <+: c :: cs := by
          exact (List.isPrefixOf_iff_prefix).mp hpre
        obtain ⟨tail, htail⟩ := hkpre
        have hdrop : (c :: cs).drop k.length = tail := by
          rw [← htail]; exact List.drop_left k tail
        -- the matched entry comes from the sheet, not from the "\r\n" entry
        have hsheet : ∃ e ∈ sheet, e.accessible = k ∧ e.tok = t := by
          simp only [trieEntries, List.mem_append, List.mem_map,
            List.mem_singleton] at hmem
          rcases hmem with ⟨e, he, heq⟩ | hcrlf
          · exact ⟨e, he, by simpa using congrArg Prod.fst heq,
              by simpa using congrArg Prod.snd heq⟩
          · exfalso
            have hk : k = [Char.ofNat 13, Char.ofNat 10] := by
              simpa using congrArg Prod.fst hcrlf
            apply hcr
            rw [← htail, hk]
            simp
        obtain ⟨e, he, hek, het⟩ := hsheet
        have hname : namesLookup sheet t = some k := by
          rw [← het, ← hek]; exact hnames e he
        have hcrtail : Char.ofNat 13 ∉ tail := fun hx => hcr (by rw [← htail]; simp [hx])
        have hih := ih tail rest (by simpa [hdrop] using hcrtail) (by rw [← hdrop]; exact hrest)
        rw [← htoks]
        show ((t :: rest).map
          (fun t => (namesLookup sheet t).getD t.stringEscaped)).flatten = c :: cs
        simp only [List.map_cons, List.flatten_cons]
        rw [hname]
        simp only [Option.getD_some]
        show k ++ stringify sheet rest = c :: cs
        rw [hih]
        exact htail

/-! ### Claim theorems: C1 -/

/-- C1 counterexample: `"\r\n"` tokenizes successfully (through the special
trie entry added in `Tokenizer::new`) to the single token `0x3F`, but
`stringify` renders `0x3F` with its one-character sheet spelling, so the
round-trip `stringify(tokenize(text).tokens) == text` fails on `"\r\n"`. -/
theorem tokenize_stringify_crlf_not_roundtrip :
    tokenize sheetModel [Char.ofNat 13, Char.ofNat 10] = some [Token.oneByte 0x3F] ∧
    stringify sheetModel [Token.oneByte 0x3F] ≠ [Char.ofNat 13, Char.ofNat 10] := by
  constructor
  · rfl
  · decide

/-- C1 (amended): for every text that contains no carriage return — so the
hardcoded `"\r\n" → 0x3F` trie entry is never matched — and tokenizes
successfully, `stringify` applied to the resulting tokens returns exactly
the input, provided the sheet's `names` map agrees with its trie keys (which
holds whenever each token appears with a single accessible spelling, as in
`Tokenizer::new` where both maps receive the same string). -/
theorem stringify_tokenize_roundtrip (sheet : List SheetEntry)
    (hnames : ∀ e ∈ sheet, namesLookup sheet e.tok = some e.accessible)
    (text : List Char) (hcr : Char.ofNat 13 ∉ text)
    (toks : List Token) (h : tokenize sheet text = some toks) :
    stringify sheet toks = text :=
  tokenizeGo_roundtrip sheet hnames text.length text toks hcr h

/-- Witness for `stringify_tokenize_roundtrip` at the sheet model and the
text `"AB"`. -/
theorem stringify_tokenize_roundtrip_witness :
    stringify sheetModel [Token.oneByte 0x41, Token.oneByte 0x42] = ['A', 'B'] :=
  stringify_tokenize_roundtrip sheetModel (by decide) ['A', 'B'] (by decide)
    [Token.oneByte 0x41, Token.oneByte 0x42] (by decide)

/-! ## Versions (`tokens/src/version.rs`) -/

/-- `Model`/`Version`, collapsed to the data the ordering inspects:
`Model::value()` (a `u8`) and the dot-separated numeric components of
`os_version` (`cmp_os_version` parses each component as `u64` and compares
the sequences lexicographically). -/
structure Version where
  modelValue : Nat
  osVersion : List Nat
deriving DecidableEq, Repr

/-- `Ord for u8`/`u64` as `Ordering`. -/
def cmpNat (a b : Nat) : Ordering :=
  if a < b then .lt else if b < a then .gt else .eq

/-- Lexicographic comparison of the parsed os-version components
(`Iterator::cmp`). -/
def cmpList : List Nat → List Nat → Ordering
| [], [] => .eq
| [], _ :: _ => .lt
| _ :: _, [] => .gt
| a :: xs, b :: ys =>
  match cmpNat a b with
  | .eq => cmpList xs ys
  | o => o

/-- `Ord for Version`: model first, then os version. -/
def Version.cmp (a b : Version) : Ordering :=
  (cmpNat a.modelValue b.modelValue).then (cmpList a.osVersion b.osVersion)

/-- `a <= b` as derived from `Ord`. -/
def Version.ble (a b : Version) : Bool := !(a.cmp b == .gt)

/-- `a < b` as derived from `Ord`. -/
def Version.blt (a b : Version) : Bool := a.cmp b == .lt

/-- Modelled from the spec: `titokens::version::EARLIEST_COLOR` is referenced
by the optimizer but its definition is not among the sources; §3 says color
constants "only exist from a specified minimum version".  The first color
model is the TI-84+CSE (`Model::value` 50), OS 4.0. -/
def EARLIEST_COLOR : Version := ⟨50, [4, 0]⟩

/-- `Version::latest()`: `Model::LATEST` (`u8::MAX`), OS "9.99.99". -/
def LATEST : Version := ⟨255, [9, 99, 99]⟩

theorem cmpNat_swap (a b : Nat) : cmpNat a b = (cmpNat b a).swap := by
  unfold cmpNat
  rcases Nat.lt_trichotomy a b with h | h | h
  · simp [h, Nat.lt_asymm h, Ordering.swap]
  · simp [h, Nat.lt_irrefl, Ordering.swap]
  · simp [h, Nat.lt_asymm h, Ordering.swap]

theorem cmpList_swap (xs ys : List Nat) : cmpList xs ys = (cmpList ys xs).swap := by
  induction xs generalizing ys with
  | nil => cases ys <;> simp [cmpList, Ordering.swap]
  | cons a xs ih =>
    cases ys with
    | nil => simp [cmpList, Ordering.swap]
    | cons b ys =>
      simp only [cmpList]
      rw [cmpNat_swap a b]
      cases cmpNat b a <;> simp [Ordering.swap, ih]

theorem Ordering.then_swap (o1 o2 : Ordering) :
    (o1.then o2).swap = o1.swap.then o2.swap := by
  cases o1 <;> cases o2 <;> rfl

theorem Version.cmp_swap (a b : Version) : a.cmp b = (b.cmp a).swap := by
  unfold Version.cmp
  rw [cmpNat_swap a.modelValue, cmpList_swap a.osVersion, ← Ordering.then_swap]

theorem Version.blt_not_ble (a b : Version) (h : a.blt b = true) :
    b.ble a = false := by
  unfold Version.blt at h
  unfold Version.ble
  rw [Version.cmp_swap b a]
  have hc : a.cmp b = .lt := by
    cases hab : a.cmp b
    · rfl
    · rw [hab] at h; exact absurd h (by decide)
    · rw [hab] at h; exact absurd h (by decide)
  rw [hc]
  rfl

/-! ## Floats

Modelled from the spec (§3 "Float"): the `tifloats` crate is an external
collaborator; the spec fixes the representation as a sign, a decimal exponent
in `-99..=99`, and a significand of up to 14 decimal digits, with
`significant_figures()` returning the digit vector between the first and last
nonzero digits inclusive (empty for zero).  The mantissa is stored here as
exactly 14 decimal digits, most significant first, as in the `tifloat!`
literal macro. -/

/-- `tifloats::Float` (spec-modelled, see section comment). -/
structure TIFloat where
  neg : Bool
  exp : Int
  mantissa : List Nat
deriving DecidableEq, Repr

/-- Pad a digit vector to the 14 mantissa digits (`Float::mantissa_from`). -/
def padTo14 (ds : List Nat) : List Nat := ds ++ List.replicate (14 - ds.length) 0

/-- Shorthand for the `tifloat!` literal macro: a non-negative float with the
given exponent and leading mantissa digits. -/
def tifl (exp : Int) (ds : List Nat) : TIFloat := ⟨false, exp, padTo14 ds⟩

def dropTrailingZeros (l : List Nat) : List Nat :=
  (l.reverse.dropWhile (· == 0)).reverse

/-- `Float::significant_figures`: digits between the first and last nonzero
digits inclusive; empty if the value is zero. -/
def TIFloat.significantFigures (f : TIFloat) : List Nat :=
  dropTrailingZeros (f.mantissa.dropWhile (· == 0))

def TIFloat.isNegative (f : TIFloat) : Bool := f.neg

def TIFloat.exponent (f : TIFloat) : Int := f.exp

/-- `Float::shift`: multiply by a power of ten, i.e. add to the exponent. -/
def TIFloat.shift (f : TIFloat) (n : Int) : TIFloat := ⟨f.neg, f.exp + n, f.mantissa⟩

/-- `Float::new` (spec-modelled): validates the exponent range `-99..=99` and
the 14-digit significand bound, returning `Err` otherwise. -/
def TIFloat.new (neg : Bool) (exp : Int) (digits : List Nat) : Option TIFloat :=
  if -99 ≤ exp ∧ exp ≤ 99 ∧ digits.length ≤ 14 then
    some ⟨neg, exp, padTo14 digits⟩
  else
    none

/-- `Ord for i64`-style comparison on `Int`. -/
def cmpInt (a b : Int) : Ordering :=
  if a < b then .lt else if b < a then .gt else .eq

/-- `Ord for tifloats::Float` (spec-modelled): numeric order; on the
normalized representation this is sign, then exponent, then mantissa digits
lexicographically. -/
def TIFloat.cmp (a b : TIFloat) : Ordering :=
  match a.neg, b.neg with
  | false, true => .gt
  | true, false => .lt
  | false, false => (cmpInt a.exp b.exp).then (cmpList a.mantissa b.mantissa)
  | true, true => ((cmpInt a.exp b.exp).then (cmpList a.mantissa b.mantissa)).swap

def TIFloat.ble (a b : TIFloat) : Bool := !(a.cmp b == .gt)

/-- `tifloat!(0x0010000000000000 * 10 ^ 1)`: the value 10. -/
def ten : TIFloat := tifl 1 [1]

/-- `tifloat!(0x0024000000000000 * 10 ^ 1)`: the value 24. -/
def twentyFour : TIFloat := tifl 1 [2, 4]

/-- `tifloat!(0x0031415926535898 * 10 ^ 0)`: pi. -/
def piFloat : TIFloat := tifl 0 [3, 1, 4, 1, 5, 9, 2, 6, 5, 3, 5, 8, 9, 8]

/-- `tifloat!(0x0027182818284590 * 10 ^ 0)`: e. -/
def eFloat : TIFloat := tifl 0 [2, 7, 1, 8, 2, 8, 1, 8, 2, 8, 4, 5, 9, 0]

/-- The value 0.1, i.e. `1 * 10 ^ -1`. -/
def pointOne : TIFloat := tifl (-1) [1]

/-! ## Numeric-literal strategies
(`ti-basic-optimizer/src/optimize/strategies/numeric_literal/`) -/

/-- `ttp!(11) - ttp!(1)` from `write_digits.rs`. -/
def DIGIT_COST : Nat := 9051 - 7075

/-- `ttp!(.11) - ttp!(.1)`. -/
def FRAC_DIGIT_COST : Nat := 9956 - 8089

/-- `(ttp!(111) - ttp!(11)) - DIGIT_COST`. -/
def SHIFTING_COST : Nat := (11106 - 9051) - DIGIT_COST

/-- `ttp!(1) - DIGIT_COST - SHIFTING_COST`. -/
def BASE_COST : Nat := 7075 - DIGIT_COST - SHIFTING_COST

/-- `ttp!(10) - ttp!(11)`. -/
def ZERO_SIGFIG_COST : Nat := 9113 - 9051

/-- `ttp!(.01) - ttp!(.1)`. -/
def FRAC_LEADING_ZERO_COST : Nat := 9511 - 8089

/-- `ttp!(.1) - BASE_COST - FRAC_DIGIT_COST - SHIFTING_COST`. -/
def DECIMAL_POINT_COST : Nat := 8089 - BASE_COST - FRAC_DIGIT_COST - SHIFTING_COST

/-- `WriteDigits::size_cost` (always exists):
`1 + max(|exponent|, #sig_figs) + (1 if negative)`. -/
def writeDigitsSizeCost (f : TIFloat) : Nat :=
  1 + max f.exponent.natAbs f.significantFigures.length +
    (if f.isNegative then 1 else 0)

/-- `WriteDigits::speed_cost`. -/
def writeDigitsSpeedCost (f : TIFloat) : Nat :=
  let exponent := f.exponent
  let digits := f.significantFigures
  let c1 := BASE_COST
  let c2 :=
    if exponent < 0 then
      c1 + FRAC_LEADING_ZERO_COST * (exponent.natAbs - 1)
    else if (digits.length : Int) < exponent + 1 then
      let trailingZeroCount := exponent.natAbs + 1 - digits.length
      c1 + (DIGIT_COST + ZERO_SIGFIG_COST) * trailingZeroCount +
        SHIFTING_COST * (((1 - digits.length % 2) + trailingZeroCount) / 2)
    else c1
  let c3 :=
    if (digits.length : Int) > exponent + 1 then c2 + DECIMAL_POINT_COST else c2
  digits.enum.foldl
    (fun acc p =>
      let acc :=
        if (p.1 : Int) > exponent then acc + FRAC_DIGIT_COST else acc + DIGIT_COST
      let acc := if p.1 % 2 == 0 then acc + SHIFTING_COST else acc
      if p.2 == 0 then acc + ZERO_SIGFIG_COST else acc)
    c3

/-- `Vec::insert` at an index. -/
def listInsertAt (l : List α) (i : Nat) (a : α) : List α :=
  l.take i ++ a :: l.drop i

/-- `Reconstruct for WriteDigits` (also the tail of
`Reconstruct for tifloats::Float` in `parse/components/numeric_literal.rs`):
sign, leading decimal zeros for negative exponents, the significant figures,
then an interior decimal point or trailing zeros. -/
def writeDigitsReconstruct (f : TIFloat) : List Token :=
  let sigFigs := f.significantFigures
  let exponent := f.exponent
  let r1 : List Token := if f.isNegative then [Token.oneByte 0xB0] else []
  let r2 :=
    if exponent < 0 then
      r1 ++ [Token.oneByte 0x3A] ++
        List.replicate (exponent.natAbs - 1) (Token.oneByte 0x30)
    else r1
  let r3 := r2 ++ sigFigs.map (fun x => Token.oneByte (0x30 + x))
  if 0 ≤ exponent then
    if sigFigs.length > 1 + exponent.toNat then
      listInsertAt r3 (r3.length + 1 + exponent.toNat - sigFigs.length)
        (Token.oneByte 0x3A)
    else if exponent.toNat ≥ sigFigs.length then
      r3 ++ List.replicate (exponent.toNat + 1 - sigFigs.length) (Token.oneByte 0x30)
    else r3
  else r3

/-- `ColorConstant::exists` (`color_constant.rs`): version at least
`EARLIEST_COLOR`, value within `10..=24`, at most two significant figures. -/
def colorConstantExists (f : TIFloat) (v : Version) : Bool :=
  EARLIEST_COLOR.ble v && (ten.ble f && f.ble twentyFour) &&
    f.significantFigures.length ≤ 2

/-- `Reconstruct for ColorConstant`: the two-byte color token. -/
def colorConstantReconstruct (f : TIFloat) : List Token :=
  let sigFigs := f.significantFigures
  let lowerByte := (0x41 - 10) + sigFigs.headD 0 * 10 +
    (if sigFigs.length == 2 then sigFigs.getD 1 0 else 0)
  [Token.twoByte 0xEF lowerByte]

/-- `MathConstant::kind`: the constant token for exactly pi or e. -/
def mathConstantKind (f : TIFloat) : Option Token :=
  if f = piFloat then some (Token.oneByte 0xAC)
  else if f = eFloat then some (Token.twoByte 0xBB 0x31)
  else none

/-- `MathConstant::size_cost` without the `exists` guard: 1 byte for pi,
2 bytes for e (the `none` arm is unreachable under `exists`). -/
def mathConstantRawSize (f : TIFloat) : Nat :=
  match mathConstantKind f with
  | some (Token.oneByte _) => 1
  | some (Token.twoByte _ _) => 2
  | none => 0

/-- `MathConstant::speed_cost` without the `exists` guard. -/
def mathConstantRawSpeed (f : TIFloat) : Nat :=
  match mathConstantKind f with
  | some (Token.oneByte _) => 4819
  | some (Token.twoByte _ _) => 4784
  | none => 0

/-- `IntegerWithExponent::adjust`: shift all significant figures in front of
the `|E`. -/
def iweAdjust (f : TIFloat) : TIFloat :=
  f.shift (-(f.exponent - f.significantFigures.length + 1))

/-- `IntegerWithExponent::exponent_speed_cost`. -/
def iweExponentSpeedCost (exponent : Int) : Option Nat :=
  if -99 ≤ exponent ∧ exponent ≤ 99 then
    let EXPONENT_DECADE_COST := 11893 - 11832
    let EXPONENT_NEGATION_COST := 11699 - 10621
    let EXPONENT_TENS_COST := 11832 - 10621 - EXPONENT_DECADE_COST
    let EXPONENT_BASE_COST := 10621 - BASE_COST - DIGIT_COST - SHIFTING_COST
    let negCost := if exponent < 0 then EXPONENT_NEGATION_COST else 0
    let decades := exponent.natAbs / 10
    let decadeCost :=
      if decades ≠ 0 then EXPONENT_TENS_COST + EXPONENT_DECADE_COST * decades
      else 0
    some (EXPONENT_BASE_COST + negCost + decadeCost)
  else none

/-- The exponent-size arm shared by `IntegerWithExponent::size_cost` and
`FPartWithExponent::size_cost`: 1 byte for `0..=9`, 2 for `-9..=-1 | 10..=99`,
3 for `-99..=-10` (the `unreachable!()` arm cannot fire under `exists`). -/
def exponentSizeArm (s : Int) : Nat :=
  if 0 ≤ s ∧ s ≤ 9 then 1
  else if (-9 ≤ s ∧ s ≤ -1) ∨ (10 ≤ s ∧ s ≤ 99) then 2
  else 3

/-- `IntegerWithExponent::exists`: the required shift fits `-99..=99`. -/
def iweExists (f : TIFloat) : Bool :=
  let shift := f.exponent - (iweAdjust f).exponent
  decide (-99 ≤ shift ∧ shift ≤ 99)

/-- `IntegerWithExponent::size_cost` without the `exists` guard. -/
def iweRawSize (f : TIFloat) : Nat :=
  1 + (if f.significantFigures == [1] then 0 else f.significantFigures.length) +
    exponentSizeArm (f.exponent - (iweAdjust f).exponent)

/-- `IntegerWithExponent::speed_cost` without the `exists` guard (the
`unwrap`s are guaranteed by `exists`). -/
def iweRawSpeed (f : TIFloat) : Nat :=
  writeDigitsSpeedCost (iweAdjust f) +
    (iweExponentSpeedCost (f.exponent - (iweAdjust f).exponent)).getD 0

/-- `Reconstruct for IntegerWithExponent`. -/
def iweReconstruct (f : TIFloat) : List Token :=
  let r1 :=
    if f.significantFigures == [1] then ([] : List Token)
    else writeDigitsReconstruct (iweAdjust f)
  let r2 := r1 ++ [Token.oneByte 0x3B]
  let e := f.exponent - (iweAdjust f).exponent
  let r3 := if e < 0 then r2 ++ [Token.oneByte 0xB0] else r2
  let e := if e < 0 then -e else e
  let r4 :=
    if e ≥ 10 then r3 ++ [Token.oneByte (0x30 + e.toNat / 10)] else r3
  r4 ++ [Token.oneByte (0x30 + e.toNat % 10)]

/-- `FPartWithExponent::adjust`: put every significant figure behind the
decimal point (resulting exponent `-1`). -/
def fpAdjust (f : TIFloat) : TIFloat := f.shift (-f.exponent - 1)

/-- `FPartWithExponent::exists`. -/
def fpExists (f : TIFloat) : Bool :=
  let shift := f.exponent - (fpAdjust f).exponent
  decide (-99 ≤ shift ∧ shift ≤ 99)

/-- `FPartWithExponent::size_cost` without the `exists` guard. -/
def fpRawSize (f : TIFloat) : Nat :=
  (if f.isNegative then 1 else 0) + 1 + f.significantFigures.length + 1 +
    exponentSizeArm (f.exponent - (fpAdjust f).exponent)

/-- `FPartWithExponent::speed_cost` without the `exists` guard. -/
def fpRawSpeed (f : TIFloat) : Nat :=
  writeDigitsSpeedCost (fpAdjust f) +
    (iweExponentSpeedCost (f.exponent - (fpAdjust f).exponent)).getD 0

/-- `Reconstruct for FPartWithExponent`.  Note the strict `exponent > 10`
comparison before emitting the tens digit (its sibling
`IntegerWithExponent` uses `>= 10`). -/
def fpReconstruct (f : TIFloat) : List Token :=
  let r1 := writeDigitsReconstruct (fpAdjust f) ++ [Token.oneByte 0x3B]
  let e := f.exponent - (fpAdjust f).exponent
  let r2 := if e < 0 then r1 ++ [Token.oneByte 0xB0] else r1
  let e := if e < 0 then -e else e
  let r3 :=
    if e > 10 then r2 ++ [Token.oneByte (0x30 + e.toNat / 10)] else r2
  r3 ++ [Token.oneByte (0x30 + e.toNat % 10)]

/-- The five `Strategy<Float>` implementations, as a tagged variant (the Rust
code boxes them as trait objects in a fixed order). -/
inductive StratKind where
| writeDigits
| colorConstant
| mathConstant
| integerWithExponent
| fpartWithExponent
deriving DecidableEq, Repr

/-- The strategy vector built by `Reconstruct for Float`
(`numeric_literal/mod.rs`), in source order. -/
def strategies : List StratKind :=
  [.writeDigits, .colorConstant, .mathConstant, .integerWithExponent,
   .fpartWithExponent]

/-- `Strategy::exists` of each strategy. -/
def stratExists : StratKind → TIFloat → Version → Bool
| .writeDigits, _, _ => true
| .colorConstant, f, v => colorConstantExists f v
| .mathConstant, f, _ => (mathConstantKind f).isSome
| .integerWithExponent, f, _ => iweExists f
| .fpartWithExponent, f, _ => fpExists f

/-- `Strategy::size_cost`: `self.exists().then(|| ...)`. -/
def stratSizeCost (k : StratKind) (f : TIFloat) (v : Version) : Option Nat :=
  if stratExists k f v then
    some (match k with
      | .writeDigits => writeDigitsSizeCost f
      | .colorConstant => 2
      | .mathConstant => mathConstantRawSize f
      | .integerWithExponent => iweRawSize f
      | .fpartWithExponent => fpRawSize f)
  else none

/-- `Strategy::speed_cost`: `self.exists().then(|| ...)`. -/
def stratSpeedCost (k : StratKind) (f : TIFloat) (v : Version) : Option Nat :=
  if stratExists k f v then
    some (match k with
      | .writeDigits => writeDigitsSpeedCost f
      | .colorConstant => 5898
      | .mathConstant => mathConstantRawSpeed f
      | .integerWithExponent => iweRawSpeed f
      | .fpartWithExponent => fpRawSpeed f)
  else none

/-- `Reconstruct` of each strategy (none of them reads the config beyond what
`exists` already checked). -/
def stratReconstruct : StratKind → TIFloat → List Token
| .writeDigits, f => writeDigitsReconstruct f
| .colorConstant, f => colorConstantReconstruct f
| .mathConstant, f => (mathConstantKind f).toList
| .integerWithExponent, f => iweReconstruct f
| .fpartWithExponent, f => fpReconstruct f

/-- The optimizer's `Priority`. -/
inductive Priority where
| size
| speed
| neutral
deriving DecidableEq, Repr

/-- `Ord for Option<usize>`: `None` sorts below any `Some`. -/
def cmpOptNat : Option Nat → Option Nat → Ordering
| none, none => .eq
| none, some _ => .lt
| some _, none => .gt
| some a, some b => cmpNat a b

/-- `u64::saturating_mul`. -/
def satMul64 (a b : Nat) : Nat := min (a * b) (2 ^ 64 - 1)

/-- `strategies::partial_cmp` (`strategies/mod.rs`): the resource-allocation
comparison; `none` models the `?` early exit under `Neutral` priority. -/
def stratCmp (p : Priority) (f : TIFloat) (v : Version) (a b : StratKind) :
    Option Ordering :=
  match p with
  | .neutral => do
    let sa ← stratSizeCost a f v
    let pa ← stratSpeedCost a f v
    let sb ← stratSizeCost b f v
    let pb ← stratSpeedCost b f v
    pure (cmpNat (satMul64 sa pa) (satMul64 sb pb))
  | .speed => some (cmpOptNat (stratSpeedCost a f v) (stratSpeedCost b f v))
  | .size => some (cmpOptNat (stratSizeCost a f v) (stratSizeCost b f v))

/-- Rust's `Iterator::min_by`: reduce with `cmp::min_by`, which keeps the
accumulator unless the comparison is `Greater` — so the *first* minimal
element wins ties.  A `none` from the comparator models the `.expect(...)`
panic. -/
def minByRust (cmp : α → α → Option Ordering) : List α → Option α
| [] => none
| x :: xs =>
  xs.foldlM (fun acc y => (cmp acc y).map (fun o => if o == .gt then y else acc)) x

/-- `Reconstruct for Vec<Box<dyn Strategy<T>>>`, selection only: filter by
`exists`, take the minimum under `partial_cmp`. -/
def chooseStrategy (p : Priority) (v : Version) (f : TIFloat) : Option StratKind :=
  minByRust (stratCmp p f v) (strategies.filter (fun k => stratExists k f v))

/-- `Reconstruct for Float`: emit the chosen strategy's tokens (`none` models
the `expect` panics, which cannot fire since `WriteDigits` always exists). -/
def reconstructFloat (p : Priority) (v : Version) (f : TIFloat) :
    Option (List Token) :=
  (chooseStrategy p v f).map (stratReconstruct · f)

/-! ### Model validation against the unit tests in the sources -/

/-- `write_digits.rs` test `speed_cost`, first two cases (`10^6`, `10^7`). -/
theorem writeDigits_speed_cost_cases :
    writeDigitsSpeedCost (tifl 6 [1]) = 19540 ∧
    writeDigitsSpeedCost (tifl 7 [1]) = 21578 ∧
    writeDigitsSpeedCost (tifl (-2) [1, 1, 1, 1]) = 15191 ∧
    writeDigitsSpeedCost (tifl 2 [1, 1, 1, 1]) = 14096 := by decide

/-- `fpart_with_exponent.rs` test `speed_cost`, cases `1*10^1` and `1*10^2`. -/
theorem fpart_speed_cost_cases :
    fpRawSpeed (tifl 1 [1]) = 11635 ∧ fpRawSpeed (tifl 2 [1]) = 11635 := by decide

/-! ### `min_by` lemmas -/

/-- The pure fold underlying `Iterator::min_by` for a total comparator keyed
by a `Nat`. -/
def foldMin (key : α → Nat) (acc : α) (xs : List α) : α :=
  xs.foldl (fun a y => if cmpNat (key a) (key y) == .gt then y else a) acc

theorem cmpNat_beq_gt_iff (a b : Nat) : (cmpNat a b == .gt) = true ↔ b < a := by
  unfold cmpNat
  by_cases h1 : a < b
  · rw [if_pos h1]
    constructor
    · intro hc; exact absurd hc (by decide)
    · intro hc; omega
  · rw [if_neg h1]
    by_cases h2 : b < a
    · rw [if_pos h2]
      exact ⟨fun _ => h2, fun _ => rfl⟩
    · rw [if_neg h2]
      constructor
      · intro hc; exact absurd hc (by decide)
      · intro hc; omega

theorem minByRust_total (c : α → α → Ordering) (x : α) (xs : List α) :
    minByRust (fun a b => some (c a b)) (x :: xs) =
      some (xs.foldl (fun acc y => if c acc y == .gt then y else acc) x) := by
  unfold minByRust
  induction xs generalizing x with
  | nil => rfl
  | cons y ys ih =>
    simp only [List.foldlM_cons, Option.map_some', Option.bind_eq_bind,
      Option.some_bind, List.foldl_cons]
    exact ih _

theorem foldMin_spec (key : α → Nat) (xs : List α) (acc : α) :
    (foldMin key acc xs = acc ∨ foldMin key acc xs ∈ xs) ∧
    key (foldMin key acc xs) ≤ key acc ∧
    ∀ y ∈ xs, key (foldMin key acc xs) ≤ key y := by
  induction xs generalizing acc with
  | nil => exact ⟨Or.inl rfl, Nat.le_refl _, by simp⟩
  | cons y ys ih =>
    have hstep : foldMin key acc (y :: ys) =
        foldMin key (if cmpNat (key acc) (key y) == .gt then y else acc) ys := rfl
    set a1 := if cmpNat (key acc) (key y) == .gt then y else acc with ha1
    obtain ⟨h1, h2, h3⟩ := ih a1
    have ha1le : key a1 ≤ key acc ∧ key a1 ≤ key y := by
      by_cases hgt : (cmpNat (key acc) (key y) == .gt) = true
      · rw [ha1, if_pos hgt]
        exact ⟨Nat.le_of_lt ((cmpNat_beq_gt_iff _ _).mp hgt), Nat.le_refl _⟩
      · rw [ha1, if_neg hgt]
        refine ⟨Nat.le_refl _, ?_⟩
        by_contra hlt
        exact hgt ((cmpNat_beq_gt_iff _ _).mpr (by omega))
    refine ⟨?_, ?_, ?_⟩
    · rw [hstep]
      rcases h1 with h1 | h1
      · rw [h1, ha1]
        by_cases hgt : (cmpNat (key acc) (key y) == .gt) = true
        · rw [if_pos hgt]; exact Or.inr (List.mem_cons_self _ _)
        · rw [if_neg hgt]; exact Or.inl rfl
      · exact Or.inr (List.mem_cons_of_mem _ h1)
    · rw [hstep]; exact Nat.le_trans h2 ha1le.1
    · intro z hz
      rcases List.mem_cons.mp hz with hz | hz
      · rw [hstep, hz]; exact Nat.le_trans h2 ha1le.2
      · rw [hstep]; exact h3 z hz

/-- `Ord for Option<usize>` is the `Nat` order under this encoding. -/
def encOptNat : Option Nat → Nat
| none => 0
| some n => n + 1

theorem cmpOptNat_enc (o1 o2 : Option Nat) :
    cmpOptNat o1 o2 = cmpNat (encOptNat o1) (encOptNat o2) := by
  cases o1 <;> cases o2 <;> simp only [cmpOptNat, encOptNat, cmpNat] <;>
    first
    | rfl
    | (split <;> split <;> omega)
    | (congr 1 <;> simp [Nat.succ_lt_succ_iff])

theorem strat_mem_strategies (j : StratKind) : j ∈ strategies := by
  cases j <;> simp [strategies]

/-! ### Claim theorems: C2 and C3 -/

/-- C2 counterexample: reconstructing the value 10 under `Size` priority.
`WriteDigits` and `ColorConstant` both exist with `size_cost` 2, and
`ColorConstant` has the strictly smaller `speed_cost` (5898 vs 9113), yet
the framework selects `WriteDigits`: `Iterator::min_by` keeps the first
minimal element, so ties in `size_cost` are *not* broken by `speed_cost`. -/
theorem size_tie_not_broken_by_speed :
    stratExists .colorConstant ten LATEST = true ∧
    stratSizeCost .colorConstant ten LATEST = some 2 ∧
    stratSizeCost .writeDigits ten LATEST = some 2 ∧
    stratSpeedCost .colorConstant ten LATEST = some 5898 ∧
    stratSpeedCost .writeDigits ten LATEST = some 9113 ∧
    chooseStrategy .size LATEST ten = some .writeDigits := by decide

/-- C2 (amended): under `Size` priority the chosen strategy exists and its
`size_cost` is minimal over all existing strategies; ties in `size_cost` are
broken by position in the strategy vector (the earliest wins), not by
`speed_cost`. -/
theorem chooseStrategy_size_minimizes (f : TIFloat) (v : Version) (k : StratKind)
    (h : chooseStrategy .size v f = some k) :
    stratExists k f v = true ∧
    ∀ j : StratKind, stratExists j f v = true →
      ∀ n m, stratSizeCost k f v = some n → stratSizeCost j f v = some m →
        n ≤ m := by
  have hfun : stratCmp .size f v = fun a b =>
      some (cmpNat (encOptNat (stratSizeCost a f v))
        (encOptNat (stratSizeCost b f v))) := by
    funext a b
    simp [stratCmp, cmpOptNat_enc]
  unfold chooseStrategy at h
  rw [hfun] at h
  cases hfl : strategies.filter (fun j => stratExists j f v) with
  | nil => rw [hfl] at h; exact absurd h (by simp [minByRust])
  | cons x xs =>
    rw [hfl] at h
    rw [minByRust_total (fun a b =>
      cmpNat (encOptNat (stratSizeCost a f v)) (encOptNat (stratSizeCost b f v)))
      x xs] at h
    have hk : foldMin (fun j => encOptNat (stratSizeCost j f v)) x xs = k :=
      Option.some.inj h
    obtain ⟨hmem, hacc, hall⟩ :=
      foldMin_spec (fun j => encOptNat (stratSizeCost j f v)) xs x
    rw [hk] at hmem hacc hall
    have hkmem : k ∈ x :: xs := by
      rcases hmem with hm | hm
      · rw [hm]; exact List.mem_cons_self _ _
      · exact List.mem_cons_of_mem _ hm
    have hkfil : k ∈ strategies.filter (fun j => stratExists j f v) := by
      rw [hfl]; exact hkmem
    have hkex : stratExists k f v = true := (List.mem_filter.mp hkfil).2
    refine ⟨hkex, ?_⟩
    intro j hj n m hn hm
    have hjfil : j ∈ strategies.filter (fun i => stratExists i f v) :=
      List.mem_filter.mpr ⟨strat_mem_strategies j, hj⟩
    rw [hfl] at hjfil
    have hkey : encOptNat (stratSizeCost k f v) ≤ encOptNat (stratSizeCost j f v) := by
      rcases List.mem_cons.mp hjfil with hj1 | hj2
      · rw [hj1]; exact hacc
      · exact hall j hj2
    rw [hn, hm] at hkey
    simpa [encOptNat] using hkey

/-- Witness for `chooseStrategy_size_minimizes` at the value 10 and the
latest version. -/
theorem chooseStrategy_size_minimizes_witness :
    chooseStrategy .size LATEST ten = some .writeDigits ∧
    stratExists .writeDigits ten LATEST = true :=
  ⟨by decide, (chooseStrategy_size_minimizes ten LATEST .writeDigits (by decide)).1⟩

/-- C3 counterexample: at the latest (color-capable) version and the value
exactly 10, `ColorConstant` exists, but the strategy chosen under `Size`
priority is `WriteDigits` — whose `size_cost` for 10 is 2 bytes (the claim
says 3), tying `ColorConstant` and winning by vector order. -/
theorem colorConstant_not_selected_for_ten :
    EARLIEST_COLOR.ble LATEST = true ∧
    stratExists .colorConstant ten LATEST = true ∧
    chooseStrategy .size LATEST ten = some .writeDigits ∧
    stratSizeCost .writeDigits ten LATEST = some 2 := by decide

/-- C3 (amended): for every version strictly below the earliest color
version, `ColorConstant::exists()` is false for every value; and for every
version at least the earliest color version, reconstructing the value
exactly 10 under `Size` priority selects `WriteDigits` (2 bytes), which ties
`ColorConstant`'s 2 bytes and precedes it in the strategy vector. -/
theorem colorConstant_gating_and_ten_selection :
    (∀ (f : TIFloat) (v : Version), v.blt EARLIEST_COLOR = true →
      stratExists .colorConstant f v = false) ∧
    (∀ v : Version, EARLIEST_COLOR.ble v = true →
      chooseStrategy .size v ten = some .writeDigits ∧
      stratSizeCost .writeDigits ten v = some 2 ∧
      stratSizeCost .colorConstant ten v = some 2) := by
  constructor
  · intro f v hlt
    show colorConstantExists f v = false
    unfold colorConstantExists
    rw [Version.blt_not_ble v EARLIEST_COLOR hlt]
    rfl
  · intro v hble
    have hccE : stratExists .colorConstant ten v = true := by
      show colorConstantExists ten v = true
      unfold colorConstantExists
      rw [hble]
      decide
    have hccS : stratSizeCost .colorConstant ten v = some 2 := by
      unfold stratSizeCost
      rw [hccE]
      rfl
    have hwdE : stratExists .writeDigits ten v = true := rfl
    have hmcE : stratExists .mathConstant ten v = false := rfl
    have hiweE : stratExists .integerWithExponent ten v = true := rfl
    have hfpE : stratExists .fpartWithExponent ten v = true := rfl
    have hwdS : stratSizeCost .writeDigits ten v = some 2 := rfl
    have hiweS : stratSizeCost .integerWithExponent ten v = some 2 := rfl
    have hfpS : stratSizeCost .fpartWithExponent ten v = some 4 := rfl
    refine ⟨?_, hwdS, hccS⟩
    have hfilter : strategies.filter (fun k => stratExists k ten v) =
        [.writeDigits, .colorConstant, .integerWithExponent, .fpartWithExponent] := by
      simp [strategies, List.filter, hccE, hwdE, hmcE, hiweE, hfpE]
    unfold chooseStrategy
    rw [hfilter]
    unfold minByRust
    simp only [List.foldlM_cons, List.foldlM_nil, stratCmp, hwdS, hccS, hiweS,
      hfpS, Option.bind_eq_bind, Option.some_bind, Option.map_some']
    rfl

/-- Witness for `colorConstant_gating_and_ten_selection`: a monochrome
TI-84+ (model value 40, OS 2.55) for the gating half, the latest version for
the selection half. -/
theorem colorConstant_gating_witness :
    stratExists .colorConstant ten ⟨40, [2, 55]⟩ = false ∧
    chooseStrategy .size LATEST ten = some .writeDigits :=
  ⟨colorConstant_gating_and_ten_selection.1 ten ⟨40, [2, 55]⟩ (by decide),
   (colorConstant_gating_and_ten_selection.2 LATEST (by decide)).1⟩

/-! ## Numeric-literal parsing (`parse/components/numeric_literal.rs`)

`Builder::parse` consumes tokens from a shared `Tokens` cursor and builds a
`Float`.  All of its failure modes are `panic!`/`todo!()` calls (there is no
`BadFloat` error anywhere in the crate); they are modelled by the `crash`
constructor carrying the panic message. -/

/-- The `Tokens` cursor (`tokens/src/lib.rs`): a token vector plus a read
position.  `next` advances the position even when already past the end, and
`backtrack_once` moves one position back, exactly as in the Rust code. -/
structure TokenCursor where
  toks : List Token
  pos : Nat
deriving DecidableEq, Repr

/-- `Tokens::peek`. -/
def TokenCursor.peek (c : TokenCursor) : Option Token := c.toks[c.pos]?

/-- `Tokens::next` (cursor part). -/
def TokenCursor.advance (c : TokenCursor) : TokenCursor := ⟨c.toks, c.pos + 1⟩

/-- `Tokens::backtrack_once`. -/
def TokenCursor.backtrackOnce (c : TokenCursor) : TokenCursor := ⟨c.toks, c.pos - 1⟩

/-- The tokens not yet consumed. -/
def TokenCursor.remaining (c : TokenCursor) : List Token := c.toks.drop c.pos

/-- `Builder::consume_zeros`: skip leading `0` tokens.  Structural recursion
on a fuel that exceeds the number of remaining tokens, so the definition
reduces in the kernel (each iteration advances the position by one and the
loop stops at the end of the vector, so the fuel is never exhausted). -/
def consumeZerosGo : Nat → TokenCursor → TokenCursor
| 0, c => c
| fuel + 1, c =>
  if c.peek = some (Token.oneByte 0x30) then consumeZerosGo fuel c.advance else c

/-- `Builder::consume_zeros`. -/
def consumeZeros (c : TokenCursor) : TokenCursor :=
  consumeZerosGo (c.toks.length + 1) c

/-- The `map_while` loop inside `Builder::digits`: collect digit values,
consuming one token past the run (also when the input ends).  Fueled like
`consumeZerosGo`. -/
def digitsLoopGo : Nat → TokenCursor → List Nat × TokenCursor
| 0, c => ([], c)
| fuel + 1, c =>
  match c.peek with
  | some tok =>
    if tok.isNumeric then
      let r := digitsLoopGo fuel c.advance
      ((tok.byte - 0x30) :: r.1, r.2)
    else ([], c.advance)
  | none => ([], c.advance)

/-- `Builder::digits`: the collected digits, then `backtrack_once`. -/
def builderDigits (c : TokenCursor) : List Nat × TokenCursor :=
  let r := digitsLoopGo (c.toks.length + 1) c
  (r.1, r.2.backtrackOnce)

/-- Result of `Builder::handle_scientific_notation`: the updated exponent
and cursor, or a panic. -/
inductive ExpParse where
| ok (exponent : Int) (c : TokenCursor)
| crash (msg : String)
deriving DecidableEq, Repr

/-- `Builder::handle_scientific_notation`. -/
def handleScientific (exponent : Int) (c : TokenCursor) : ExpParse :=
  let negative := c.peek == some (Token.oneByte 0xB0)
  let c := if negative then c.advance else c
  let (ds, c) := builderDigits c
  let step : ExpParse :=
    match ds with
    | [] => .crash "Missing required exponent"
    | [d] =>
      .ok (if negative then exponent - (d : Int) else exponent + (d : Int)) c
    | [d1, d2] =>
      .ok (if negative then exponent - ((d1 * 10 + d2 : Nat) : Int)
           else exponent + ((d1 * 10 + d2 : Nat) : Int)) c
    | _ =>
      .crash (if negative then "E-99 is the lowest valid exponent"
              else "E99 is the highest valid exponent.")
  match step with
  | .ok e c =>
    if c.peek == some (Token.oneByte 0x3A) then .crash "Unexpected decimal point."
    else .ok e c
  | r => r

/-- Result of `Builder::parse`: the float and the cursor after it, or a
panic. -/
inductive NumParse where
| ok (f : TIFloat) (c : TokenCursor)
| crash (msg : String)
deriving DecidableEq, Repr

/-- `Builder::finalize`: `Float::new(false, exponent, mantissa_from(digits))`
(`is_negative` is never set by the builder); an `Err` reaches the
`todo!()`. -/
def builderFinalize (exponent : Int) (ds : List Nat) (c : TokenCursor) : NumParse :=
  match TIFloat.new false exponent ds with
  | some f => .ok f c
  | none => .crash "todo"

/-- `Builder::parse`, starting from a fresh cursor over the given tokens. -/
def builderParse (ts : List Token) : NumParse :=
  let c := consumeZeros ⟨ts, 0⟩
  match c.peek with
  | some (Token.oneByte 0x3A) =>
    -- leading decimal: note that this arm never looks for a following `E`
    let c := c.advance
    let (ds, c) := builderDigits c
    if ds.isEmpty then .crash "Illegal decimal point; missing digits."
    else
      match ds.findIdx? (fun x => x ≠ 0) with
      | none => .crash "called Option::unwrap on a None value"
      | some leadingZeros =>
        let ds := ds.drop leadingZeros
        if leadingZeros ≥ 99 then .crash "Floating point number too small."
        else builderFinalize (-(leadingZeros : Int) - 1) ds c
  | some (Token.oneByte 0x3B) =>
    -- scientific `E` with implied 1
    let c := c.advance
    match handleScientific 0 c with
    | .ok e c => builderFinalize e [1] c
    | .crash m => .crash m
  | some tok =>
    if tok.isNumeric then
      let (before, c) := builderDigits c
      match c.peek with
      | some (Token.twoByte 0xEF 0x2F) => .crash "not yet implemented"
      | _ =>
        if before.length < 99 then
          let exponent : Int := (before.length : Int) - 1
          let (ds, c) :=
            if c.peek == some (Token.oneByte 0x3A) then
              let c := c.advance
              let (frac, c) := builderDigits c
              (before ++ frac, c)
            else (before, c)
          if c.peek == some (Token.oneByte 0x3B) then
            match handleScientific exponent c.advance with
            | .ok e c => builderFinalize e ds c
            | .crash m => .crash m
          else builderFinalize exponent ds c
        else .crash "Overflow: Too many digits."
    else builderFinalize 0 [] c
  | none => builderFinalize 0 [] c

/-! ### Claim theorems: C4 and C6 -/

/-- C4: the round-trip on the Float value fails for `FPartWithExponent`.
For the value 10 (`1*10^1`, the spec's own `FPartWithExponent` scenario
value) the strategy exists and emits `.1|E2`, but `Builder::parse`'s
leading-decimal arm never looks for a following `E`: re-parsing the emission
yields 0.1 and leaves the exponent tokens `|E2` unconsumed. -/
theorem fpart_emission_reparse_changes_value :
    stratExists .fpartWithExponent ten LATEST = true ∧
    stratReconstruct .fpartWithExponent ten =
      [Token.oneByte 0x3A, Token.oneByte 0x31, Token.oneByte 0x3B,
       Token.oneByte 0x32] ∧
    builderParse (stratReconstruct .fpartWithExponent ten) =
      .ok pointOne ⟨[Token.oneByte 0x3A, Token.oneByte 0x31, Token.oneByte 0x3B,
        Token.oneByte 0x32], 2⟩ ∧
    pointOne ≠ ten := by decide

/-- C6: numeric-literal parsing does not fail with a surfaced `BadFloat`
error; it panics.  On the one-token input `.` (a lone decimal point) the
builder hits `panic!("Illegal decimal point; missing digits.")` instead of
returning any error value. -/
theorem numeric_parse_crashes_on_lone_decimal_point :
    builderParse [Token.oneByte 0x3A] =
      .crash "Illegal decimal point; missing digits." := by decide

/-! ## Expression parsing (shunting-yard, `parse/expression.rs`)

The embedding covers the operator machinery in full — `push_binop`,
`process_operator`, parentheses, negation, finalization — over the operand
fragment the claims exercise (numeric variables).  The other operand
families (`Float` literals, strings, lists, names, function calls) go
through the same `process_operand_stack` entry and do not interact with the
operator-stack comparisons under scrutiny. -/

/-- `BinOp::recognize` (`parse/components/binary_operator.rs`). -/
def binOpRecognize : Token → Bool
| .oneByte a =>
  a == 0x3C || a == 0x3D || a == 0x40 ||
  (0x6A ≤ a && a ≤ 0x6F) ||
  a == 0x70 || a == 0x71 || a == 0x82 || a == 0x83 ||
  a == 0x94 || a == 0x95 || a == 0xF0 || a == 0xF1
| _ => false

/-- `BinOp::recognize_precedence`. -/
def binOpPrecedence : Token → Option Nat
| .oneByte a =>
  if a == 0x3C || a == 0x3D then some 10
  else if a == 0x40 then some 20
  else if 0x6A ≤ a && a ≤ 0x6F then some 30
  else if a == 0x70 || a == 0x71 then some 40
  else if a == 0x82 || a == 0x83 then some 50
  else if a == 0x94 || a == 0x95 then some 60
  else if a == 0xF0 || a == 0xF1 then some 70
  else none
| _ => none

/-- `UnOp::recognize` (`parse/components/unary_operator.rs`). -/
def unOpRecognize : Token → Bool
| .oneByte a => a == 0xB0 || (0x0A ≤ a && a ≤ 0x0F) || a == 0x2D
| .twoByte a b => a == 0xBB && b == 0xDA

/-- The operand fragment of the embedding (see section comment). -/
inductive Operand where
| numericVarName (t : Token)
deriving DecidableEq, Repr

/-- `Expression`, with `Operator::Binary`/`Operator::Unary` flattened into
constructors (`Operator::FunctionCall` is outside the embedded fragment). -/
inductive Expression where
| operand (o : Operand)
| binOp (kind : Token) (l r : Expression)
| unOp (kind : Token) (child : Expression)
deriving DecidableEq, Repr

/-- `Operand::parse`, restricted to the embedded fragment: numeric-variable
tokens (`0x41..=0x5B` and the two-byte recursive `n`) parse to
`NumericVarName` and consume nothing further. -/
def operandParse (t : Token) : Option Operand :=
  if t.isAlpha || t == Token.twoByte 0x62 0x21 then some (.numericVarName t)
  else none

/-- The `Builder` state of `parse/expression.rs` (the `expression_start`
diagnostic field is omitted; errors carry their numeric code). -/
structure ExprBuilder where
  operandStack : List Expression
  operatorStack : List Token
  parenDepth : Nat
  implicitMulAllowed : Bool
  tokens : TokenCursor
deriving DecidableEq, Repr

/-- `Builder::process_operator`: apply a unary operator to the top operand or
a binary operator to the top two; returns `false` for anything else (the
left-paren sentinel).  Error codes 5/2/3 are the `MissingOperand` reports. -/
def processOperator (b : ExprBuilder) (operator : Token) :
    Except Nat (ExprBuilder × Bool) :=
  if unOpRecognize operator then
    match b.operandStack with
    | [] => .error 5
    | child :: rest =>
      .ok (⟨Expression.unOp operator child :: rest, b.operatorStack, b.parenDepth,
        (if operator ≠ Token.oneByte 0xB0 then true else b.implicitMulAllowed),
        b.tokens⟩, true)
  else if binOpRecognize operator then
    match b.operandStack with
    | [] => .error 2
    | [_] => .error 3
    | right :: left :: rest =>
      .ok (⟨Expression.binOp operator left right :: rest, b.operatorStack,
        b.parenDepth, false, b.tokens⟩, true)
  else .ok (b, false)

/-- The reduction loop of `Builder::push_binop`: while the stack top is a
unary operator or a binary operator of precedence `>=` the incoming one
(`unwrap_or(0)` for non-binops), pop and apply it.  There is no special case
for `^`.  The fuel exceeds the stack height, so it is never exhausted. -/
def pushBinopLoop : Nat → ExprBuilder → Nat → Except Nat ExprBuilder
| 0, b, _ => .ok b
| fuel + 1, b, precedence =>
  match b.operatorStack with
  | [] => .ok b
  | tok :: restOps =>
    if unOpRecognize tok || (binOpPrecedence tok).getD 0 ≥ precedence then
      match processOperator
          ⟨b.operandStack, restOps, b.parenDepth, b.implicitMulAllowed, b.tokens⟩
          tok with
      | .error e => .error e
      | .ok (b2, _) => pushBinopLoop fuel b2 precedence
    else .ok b

/-- `Builder::push_binop`. -/
def pushBinop (b : ExprBuilder) (operator : Token) : Except Nat ExprBuilder :=
  let precedence := (binOpPrecedence operator).getD 0
  let b1 : ExprBuilder :=
    ⟨b.operandStack, b.operatorStack, b.parenDepth, false, b.tokens⟩
  match pushBinopLoop (b1.operatorStack.length + 1) b1 precedence with
  | .error e => .error e
  | .ok b2 =>
    .ok ⟨b2.operandStack, operator :: b2.operatorStack, b2.parenDepth,
      b2.implicitMulAllowed, b2.tokens⟩

/-- `Builder::check_implicit_mul`: inject a `*` at precedence 50 when
juxtaposition is allowed. -/
def checkImplicitMul (b : ExprBuilder) : Except Nat ExprBuilder :=
  if b.implicitMulAllowed then pushBinop b (Token.oneByte 0x82) else .ok b

/-- `Builder::open_paren`. -/
def openParen (b : ExprBuilder) : Except Nat ExprBuilder :=
  let b1 : ExprBuilder :=
    ⟨b.operandStack, b.operatorStack, b.parenDepth + 1, b.implicitMulAllowed,
      b.tokens⟩
  match checkImplicitMul b1 with
  | .error e => .error e
  | .ok b2 =>
    .ok ⟨b2.operandStack, Token.oneByte 0x10 :: b2.operatorStack, b2.parenDepth,
      b2.implicitMulAllowed, b2.tokens⟩

/-- The reduction loop of `Builder::close_paren`: process the stack top and
pop it while it reduces. -/
def closeParenLoop : Nat → ExprBuilder → Except Nat ExprBuilder
| 0, b => .ok b
| fuel + 1, b =>
  match b.operatorStack with
  | [] => .ok b
  | tok :: restOps =>
    match processOperator b tok with
    | .error e => .error e
    | .ok (_, false) => .ok b
    | .ok (b2, true) =>
      closeParenLoop fuel
        ⟨b2.operandStack, restOps, b2.parenDepth, b2.implicitMulAllowed, b2.tokens⟩

/-- `Builder::close_paren`. -/
def closeParen (b : ExprBuilder) : Except Nat ExprBuilder :=
  let b1 : ExprBuilder :=
    ⟨b.operandStack, b.operatorStack, b.parenDepth - 1, b.implicitMulAllowed,
      b.tokens⟩
  match closeParenLoop (b1.operatorStack.length + 1) b1 with
  | .error e => .error e
  | .ok b2 =>
    match b2.operatorStack with
    | Token.oneByte 0x10 :: restOps =>
      .ok ⟨b2.operandStack, restOps, b2.parenDepth, true, b2.tokens⟩
    | _ => .error 1

/-- `Builder::process_operand_stack`, over the embedded operand fragment
(the `FunctionCall` alternative and the `Ans(`-ambiguity check do not arise
for numeric variables). -/
def processOperandStack (b : ExprBuilder) (next : Token) :
    Except Nat (ExprBuilder × Bool) :=
  match operandParse next with
  | some operand =>
    match checkImplicitMul b with
    | .error e => .error e
    | .ok b1 =>
      .ok (⟨Expression.operand operand :: b1.operandStack, b1.operatorStack,
        b1.parenDepth, true, b1.tokens⟩, true)
  | none => .ok (b, false)

/-- `Builder::process_next`. -/
def processNext (b : ExprBuilder) (next : Token) :
    Except Nat (ExprBuilder × Bool) :=
  match processOperandStack b next with
  | .error e => .error e
  | .ok (b1, true) => .ok (b1, true)
  | .ok (b1, false) =>
    if next == Token.oneByte 0x10 then
      match openParen b1 with
      | .error e => .error e
      | .ok b2 => .ok (b2, true)
    else if next == Token.oneByte 0x11 && b1.parenDepth > 0 then
      match closeParen b1 with
      | .error e => .error e
      | .ok b2 => .ok (b2, true)
    else if next == Token.oneByte 0xB0 then
      .ok (⟨b1.operandStack, next :: b1.operatorStack, b1.parenDepth, false,
        b1.tokens⟩, true)
    else if binOpRecognize next then
      match pushBinop b1 next with
      | .error e => .error e
      | .ok b2 => .ok (b2, true)
    else if unOpRecognize next then
      match processOperator b1 next with
      | .error e => .error e
      | .ok (b2, _) => .ok (b2, true)
    else .ok (b1, false)

/-- The `while let Some(next) = self.tokens.next()` loop of
`Builder::build`; `Tokens::next` advances the position even at the end. -/
def buildLoop : Nat → ExprBuilder → Except Nat ExprBuilder
| 0, b => .ok b
| fuel + 1, b =>
  match b.tokens.peek with
  | none =>
    .ok ⟨b.operandStack, b.operatorStack, b.parenDepth, b.implicitMulAllowed,
      b.tokens.advance⟩
  | some next =>
    let b1 : ExprBuilder :=
      ⟨b.operandStack, b.operatorStack, b.parenDepth, b.implicitMulAllowed,
        b.tokens.advance⟩
    match processNext b1 next with
    | .error e => .error e
    | .ok (b2, true) => buildLoop fuel b2
    | .ok (b2, false) => .ok b2

/-- The loop of `Builder::finalize`: pop every remaining operator, skipping
left-paren sentinels, and reduce it. -/
def finalizeLoop : Nat → ExprBuilder → Except Nat ExprBuilder
| 0, b => .ok b
| fuel + 1, b =>
  match b.operatorStack with
  | [] => .ok b
  | x :: restOps =>
    let b1 : ExprBuilder :=
      ⟨b.operandStack, restOps, b.parenDepth, b.implicitMulAllowed, b.tokens⟩
    if x == Token.oneByte 0x10 then finalizeLoop fuel b1
    else
      match processOperator b1 x with
      | .error e => .error e
      | .ok (b2, _) => finalizeLoop fuel b2

/-- `Builder::finalize`: error 4 is the `valid()` failure. -/
def exprFinalize (b : ExprBuilder) : Except Nat (Option Expression) :=
  match finalizeLoop (b.operatorStack.length + 1) b with
  | .error e => .error e
  | .ok b2 =>
    if b2.operatorStack.isEmpty && b2.operandStack.length == 1 then
      .ok b2.operandStack.head?
    else .error 4

/-- `Builder::build` from a fresh cursor: run the loop, `backtrack_once`,
finalize. -/
def exprBuild (ts : List Token) : Except Nat (Option Expression) :=
  match buildLoop (ts.length + 2) ⟨[], [], 0, false, ⟨ts, 0⟩⟩ with
  | .error e => .error e
  | .ok b =>
    exprFinalize ⟨b.operandStack, b.operatorStack, b.parenDepth,
      b.implicitMulAllowed, b.tokens.backtrackOnce⟩

/-! ### Claim theorems: C5 -/

/-- C5 counterexample: the token stream `A^B^C` parses to `(A^B)^C`, not to
`A^(B^C)`: `push_binop` reduces on precedence `>=` for every binary
operator, with no strict-inequality special case for `^`. -/
theorem power_chain_parses_left_associative :
    exprBuild [Token.oneByte 0x41, Token.oneByte 0xF0, Token.oneByte 0x42,
      Token.oneByte 0xF0, Token.oneByte 0x43] =
      .ok (some (Expression.binOp (Token.oneByte 0xF0)
        (Expression.binOp (Token.oneByte 0xF0)
          (Expression.operand (Operand.numericVarName (Token.oneByte 0x41)))
          (Expression.operand (Operand.numericVarName (Token.oneByte 0x42))))
        (Expression.operand (Operand.numericVarName (Token.oneByte 0x43))))) ∧
    Expression.binOp (Token.oneByte 0xF0)
      (Expression.binOp (Token.oneByte 0xF0)
        (Expression.operand (Operand.numericVarName (Token.oneByte 0x41)))
        (Expression.operand (Operand.numericVarName (Token.oneByte 0x42))))
      (Expression.operand (Operand.numericVarName (Token.oneByte 0x43))) ≠
    Expression.binOp (Token.oneByte 0xF0)
      (Expression.operand (Operand.numericVarName (Token.oneByte 0x41)))
      (Expression.binOp (Token.oneByte 0xF0)
        (Expression.operand (Operand.numericVarName (Token.oneByte 0x42)))
        (Expression.operand (Operand.numericVarName (Token.oneByte 0x43)))) :=
  ⟨rfl, by decide⟩

/-- C5 (amended): an incoming binary operator reduces the operator stack
while the stack top is a unary operator or a binary operator of precedence
greater than *or equal to* the incoming one, with no exception for `^`; so
`^` chains parse left-associatively: for every token stream of the form
`A^B^C` over operand tokens, the resulting tree is `(A^B)^C`. -/
theorem power_chain_left_assoc (ta tb tc : Token)
    (hA : operandParse ta = some (Operand.numericVarName ta))
    (hB : operandParse tb = some (Operand.numericVarName tb))
    (hC : operandParse tc = some (Operand.numericVarName tc)) :
    exprBuild [ta, Token.oneByte 0xF0, tb, Token.oneByte 0xF0, tc] =
      .ok (some (Expression.binOp (Token.oneByte 0xF0)
        (Expression.binOp (Token.oneByte 0xF0)
          (Expression.operand (Operand.numericVarName ta))
          (Expression.operand (Operand.numericVarName tb)))
        (Expression.operand (Operand.numericVarName tc)))) := by
  have hp1 : operandParse (Token.oneByte 0xF0) = none := rfl
  have hp2 : binOpRecognize (Token.oneByte 0xF0) = true := rfl
  have hp3 : binOpPrecedence (Token.oneByte 0xF0) = some 70 := rfl
  have hp4 : unOpRecognize (Token.oneByte 0xF0) = false := rfl
  have hp5 : (Token.oneByte 0xF0 == Token.oneByte 0x10) = false := rfl
  have hp6 : (Token.oneByte 0xF0 == Token.oneByte 0x11) = false := rfl
  have hp7 : (Token.oneByte 0xF0 == Token.oneByte 0xB0) = false := rfl
  simp [exprBuild, buildLoop, processNext, processOperandStack, hA, hB, hC,
    hp1, hp2, hp3, hp4, hp5, hp6, hp7,
    checkImplicitMul, pushBinop, pushBinopLoop, processOperator, exprFinalize,
    finalizeLoop, TokenCursor.peek, TokenCursor.advance, TokenCursor.backtrackOnce]

/-- Witness for `power_chain_left_assoc` at the stream `X^Y^Z`
(tokens `0x58 0xF0 0x59 0xF0 0x5A`). -/
theorem power_chain_left_assoc_witness :
    exprBuild [Token.oneByte 0x58, Token.oneByte 0xF0, Token.oneByte 0x59,
      Token.oneByte 0xF0, Token.oneByte 0x5A] =
      .ok (some (Expression.binOp (Token.oneByte 0xF0)
        (Expression.binOp (Token.oneByte 0xF0)
          (Expression.operand (Operand.numericVarName (Token.oneByte 0x58)))
          (Expression.operand (Operand.numericVarName (Token.oneByte 0x59))))
        (Expression.operand (Operand.numericVarName (Token.oneByte 0x5A))))) :=
  power_chain_left_assoc (Token.oneByte 0x58) (Token.oneByte 0x59)
    (Token.oneByte 0x5A) (by decide) (by decide) (by decide)

/-! ## Statements and programs

The statement layer (`parse/statements/` and its `commands/` twin, which the
analysis modules consume) embedded as far as the control-flow and label
claims read it.  Payloads that no claim's code path inspects (generic
commands, store targets, name kinds inside `DelVarTarget`) are elided. -/

/-- `LabelName`: one or two alphanumeric bytes packed as
`(first << 8) | second` into a 16-bit word. -/
structure LabelName where
  packed : Nat
deriving DecidableEq, Repr

/-- `LabelName::new` (the alphanumeric `assert!`s are relied on, not
modelled: every name built here is valid). -/
def LabelName.new (first : Nat) (second : Option Nat) : LabelName :=
  ⟨first * 256 + second.getD 0⟩

/-- `ForLoop` (`statements/control_flow/for_loop.rs`); `end` is renamed
`stop` (Lean keyword). -/
structure ForLoop where
  iterator : Expression
  start : Expression
  stop : Expression
  step : Option Expression
  hasEndingParen : Bool
deriving DecidableEq, Repr

/-- `IsDs`; the `variable` field (a `NumericVarName`) carries its token. -/
structure IsDs where
  var : Token
  condition : Expression
deriving DecidableEq, Repr

/-- `Menu` (`statements/control_flow/menu.rs`). -/
structure Menu where
  title : Expression
  optionTitles : List Expression
  optionLabels : List LabelName
deriving DecidableEq, Repr

/-- `ControlFlow`; Lean-keyword variants carry an `S` suffix. -/
inductive ControlFlow where
| ifS (cond : Expression)
| thenS
| elseS
| whileS (cond : Expression)
| repeatS (cond : Expression)
| forS (f : ForLoop)
| endS
| returnS
| lbl (l : LabelName)
| goto (l : LabelName)
| stop
| isGt (x : IsDs)
| dsLt (x : IsDs)
| menu (m : Menu)
deriving DecidableEq, Repr

/-- `DelVarTarget`: the nine deletable name kinds (payloads elided; no claim
reads them). -/
inductive DelVarTarget where
| numericVar
| list
| matrix
| listAccess
| matrixAccess
| string
| pic
| image
| equation
deriving DecidableEq, Repr

mutual

/-- `DelVarChain`: deletions plus an optional same-line valence statement. -/
inductive DelVarChain where
| mk (deletions : List DelVarTarget) (valence : Option Statement)

/-- `Statement` (the `Command` twin used by the analysis code has the same
arms minus `Fiction`); payloads of `Generic`, `SetUpEditor`, `Store` and
`ProgramInvocation` are elided. -/
inductive Statement where
| none
| controlFlow (cf : ControlFlow)
| generic
| delVarChain (d : DelVarChain)
| setUpEditor
| expr (e : Expression)
| store (e : Expression)
| programInvocation
| fiction (s : Statement)

end

/-! ### `BTreeMap` as a sorted association list -/

/-- `BTreeMap::insert` (overwrites). -/
def alInsert (k : Nat) (v : α) : List (Nat × α) → List (Nat × α)
| [] => [(k, v)]
| (k1, v1) :: rest =>
  if k < k1 then (k, v) :: (k1, v1) :: rest
  else if k = k1 then (k, v) :: rest
  else (k1, v1) :: alInsert k v rest

/-- `BTreeMap::get`. -/
def alLookup (k : Nat) : List (Nat × α) → Option α
| [] => Option.none
| (k1, v1) :: rest => if k = k1 then some v1 else alLookup k rest

/-- `map.entry(k).or_default().push(i)` for a `BTreeMap<_, Vec<usize>>`. -/
def alPush (k : Nat) (i : Nat) : List (Nat × List Nat) → List (Nat × List Nat)
| [] => [(k, [i])]
| (k1, v1) :: rest =>
  if k < k1 then (k, [i]) :: (k1, v1) :: rest
  else if k = k1 then (k1, v1 ++ [i]) :: rest
  else (k1, v1) :: alPush k i rest

/-! ## Labels (`analyze/control_flow/labels.rs`) and label-name optimization
(`optimize/control_flow/label_name.rs`) -/

/-- `Program::label_declarations`: reverse iteration with overwriting
inserts, so the first (lowest-index) declaring line wins.  Keys are
`LabelName::packed`. -/
def labelDeclarations (p : List Statement) : List (Nat × Nat) :=
  p.enum.reverse.foldl
    (fun m pr =>
      match pr.2 with
      | Statement.controlFlow (ControlFlow.lbl name) => alInsert name.packed pr.1 m
      | _ => m)
    []

/-- `Program::label_usages`: `Goto` and every `Menu(` option label, with
duplicates kept. -/
def labelUsages (p : List Statement) : List (Nat × List Nat) :=
  p.enum.foldl
    (fun m pr =>
      match pr.2 with
      | Statement.controlFlow (ControlFlow.goto l) => alPush l.packed pr.1 m
      | Statement.controlFlow (ControlFlow.menu mn) =>
        mn.optionLabels.foldl (fun m2 l => alPush l.packed pr.1 m2) m
      | _ => m)
    []

/-- `DICTIONARY` from `label_name.rs`: A–Z, theta, then 0–9. -/
def DICTIONARY : List Nat :=
  [0x41, 0x42, 0x43, 0x44, 0x45, 0x46, 0x47, 0x48, 0x49, 0x4A, 0x4B, 0x4C,
   0x4D, 0x4E, 0x4F, 0x50, 0x51, 0x52, 0x53, 0x54, 0x55, 0x56, 0x57, 0x58,
   0x59, 0x5A, 0x5B,
   0x30, 0x31, 0x32, 0x33, 0x34, 0x35, 0x36, 0x37, 0x38, 0x39]

/-- `label_name(rank)`: the name assigned to the label of a given usage
rank (`LETTERS = 27`, `NUMBERS = 10`). -/
def labelNameFn (rank : Nat) : LabelName :=
  if rank < 37 then LabelName.new (DICTIONARY.getD rank 0) Option.none
  else
    let r1 := rank - 37
    if r1 < 27 * 27 then
      LabelName.new (DICTIONARY.getD (r1 / 27) 0) (some (DICTIONARY.getD (r1 % 27) 0))
    else
      let r2 := r1 - 27 * 27
      if r2 < 10 * 27 then
        LabelName.new (DICTIONARY.getD (27 + r2 / 27) 0)
          (some (DICTIONARY.getD (r2 % 27) 0))
      else
        let r3 := r2 - 10 * 27
        if r3 < 27 * 10 then
          LabelName.new (DICTIONARY.getD (r3 % 27) 0)
            (some (DICTIONARY.getD (27 + r3 / 27) 0))
        else
          let r4 := r3 - 27 * 10
          LabelName.new (DICTIONARY.getD (27 + r4 / 10) 0)
            (some (DICTIONARY.getD (27 + r4 % 10) 0))

/-- Rust's stable `sort_by(|a, b| b.1.len().cmp(&a.1.len()))`: descending by
usage count, equal counts keeping their original (key-sorted) order.
Modelled as a stable insertion sort. -/
def sortInsertDesc (x : Nat × List Nat) :
    List (Nat × List Nat) → List (Nat × List Nat)
| [] => [x]
| y :: rest =>
  if x.2.length ≥ y.2.length then x :: y :: rest else y :: sortInsertDesc x rest

/-- See `sortInsertDesc`. -/
def stableSortDesc : List (Nat × List Nat) → List (Nat × List Nat)
| [] => []
| x :: rest => sortInsertDesc x (stableSortDesc rest)

/-- The usage-renaming loop of `Program::optimize_label_names`: walk a
label's usage list (skipping a usage equal to its predecessor), rewriting
`Goto` targets unconditionally and `Menu(` option labels that compare equal
to the *old* label value. -/
def renameUsages (label : Nat) (newName : LabelName) :
    List Nat → Option Nat → List Statement → List Statement
| [], _, lines => lines
| u :: rest, prev, lines =>
  if prev == some u then renameUsages label newName rest (some u) lines
  else
    let lines2 :=
      match lines[u]? with
      | some (Statement.controlFlow (ControlFlow.goto _)) =>
        lines.set u (Statement.controlFlow (ControlFlow.goto newName))
      | some (Statement.controlFlow (ControlFlow.menu m)) =>
        lines.set u (Statement.controlFlow (ControlFlow.menu
          ⟨m.title, m.optionTitles,
            m.optionLabels.map (fun l => if l.packed == label then newName else l)⟩))
      | _ => lines
    renameUsages label newName rest (some u) lines2

/-- `Program::optimize_label_names`: clear unused and shadowed declarations,
rank labels by descending usage count, and rename declaration and usage
sites rank by rank.  The two `panic!`s are modelled as `none`. -/
def optimizeLabelNames (p : List Statement) : Option (List Statement) :=
  let decls := labelDeclarations p
  let usages := labelUsages p
  let lines1 := p.enum.map (fun pr =>
    match pr.2 with
    | Statement.controlFlow (ControlFlow.lbl name) =>
      if (alLookup name.packed usages).isNone ∨
          alLookup name.packed decls ≠ some pr.1 then
        Statement.none
      else pr.2
    | _ => pr.2)
  let usageSorted := stableSortDesc usages
  usageSorted.enum.foldl
    (fun acc pr =>
      match acc with
      | Option.none => Option.none
      | some lines =>
        let rank := pr.1
        let label := pr.2.1
        let us := pr.2.2
        let newName := labelNameFn rank
        match alLookup label decls with
        | Option.none => Option.none
        | some declLine =>
          match lines[declLine]? with
          | some (Statement.controlFlow (ControlFlow.lbl _)) =>
            some (renameUsages label newName us Option.none
              (lines.set declLine (Statement.controlFlow (ControlFlow.lbl newName))))
          | _ => Option.none)
    (some lines1)

/-- The (label-usage line → label-declaration line) pairs computed from
`label_usages` and `label_declarations`. -/
def labelPairs (p : List Statement) : List (Nat × Nat) :=
  (labelUsages p).foldr
    (fun pr acc =>
      match alLookup pr.1 (labelDeclarations p) with
      | some d => pr.2.map (fun u => (u, d)) ++ acc
      | Option.none => acc)
    []

/-- The pair *set* of `labelPairs`. -/
def labelPairsFinset (p : List Statement) : Finset (Nat × Nat) :=
  (labelPairs p).toFinset

/-- The three-line program refuting C8: a `Menu` whose options reference
labels `B`, `A`, `B`, then `Lbl B`, then `Lbl A`. -/
def pgm8 : List Statement :=
  [Statement.controlFlow (ControlFlow.menu
    ⟨Expression.operand (Operand.numericVarName (Token.oneByte 0x41)),
     [Expression.operand (Operand.numericVarName (Token.oneByte 0x41)),
      Expression.operand (Operand.numericVarName (Token.oneByte 0x42)),
      Expression.operand (Operand.numericVarName (Token.oneByte 0x43))],
     [⟨0x4200⟩, ⟨0x4100⟩, ⟨0x4200⟩]⟩),
   Statement.controlFlow (ControlFlow.lbl ⟨0x4200⟩),
   Statement.controlFlow (ControlFlow.lbl ⟨0x4100⟩)]

/-! ### Claim theorem: C8 -/

/-- C8: label-name optimization does not preserve the usage→declaration pair
set.  In `pgm8` the label `B` (two usages) is ranked first and renamed to
`A`; when the original label `A` is then processed, the `Menu` arm's
`label == used_label` comparison also matches the options just renamed from
`B`, so every option ends up on one label: the pair `(0, 1)` disappears. -/
theorem menu_label_rename_alias_bug :
    labelPairsFinset pgm8 = {(0, 1), (0, 2)} ∧
    (optimizeLabelNames pgm8).map labelPairsFinset = some {(0, 2)} := by
  decide

/-! ## Block failure paths (`analyze/control_flow/failure_paths.rs`) -/

/-- `BranchKind` from `failure_paths.rs`. -/
inductive BranchKind where
| ifThen
| elseK (hasIfThen : Bool)
| skippableLoop
| unskippableLoop
deriving DecidableEq, Repr

/-- `Branch`. -/
structure Branch where
  kind : BranchKind
  idx : Nat
  isDelvarValence : Bool
deriving DecidableEq, Repr

/-- Unwrap a `DelVarChain` with a valence statement into the valence plus
the `is_delvar_valence` flag (the prelude of the walk's loop body). -/
def delvarUnwrap (line : Statement) : Statement × Bool :=
  match line with
  | Statement.delVarChain (DelVarChain.mk _ (some valenceCommand)) =>
    (valenceCommand, true)
  | _ => (line, false)

/-- `Vec::rposition` combined with the subsequent `stack.get(idx)`.  The
Rust stack grows at the vector's end; here the top of stack is the list
head, so the element nearest the top satisfying the predicate is the first
match from the head. -/
def rposFind (p : Branch → Bool) : List Branch → Option (Nat × Branch)
| [] => Option.none
| b :: rest =>
  if p b then some (0, b) else (rposFind p rest).map (fun pr => (pr.1 + 1, pr.2))

/-- The `ControlFlow::Else` arm of the walk: find the branch nearest the top
that is not DelVar-valenced; if it is an `IfThen` (and the `Else` itself is
not DelVar-valenced), record its failure path and remove it; push the
`Else` branch. -/
def handleElse (idx : Nat) (isDelvar : Bool) (stack : List Branch)
    (out : List (Nat × Nat)) : List Branch × List (Nat × Nat) :=
  match rposFind (fun x => !x.isDelvarValence) stack with
  | some (i, b) =>
    if b.kind == BranchKind.ifThen then
      let s2 := if !isDelvar then stack.eraseIdx i else stack
      let o2 := if !isDelvar then alInsert b.idx (idx + 1) out else out
      (⟨BranchKind.elseK true, idx, isDelvar⟩ :: s2, o2)
    else (⟨BranchKind.elseK false, idx, isDelvar⟩ :: stack, out)
  | Option.none => (⟨BranchKind.elseK false, idx, isDelvar⟩ :: stack, out)

/-- The `ControlFlow::End` arm: pop branches, recording each popped branch's
failure path, until a branch that is neither DelVar-valenced nor an
`Else{has_if_then: false}` is popped (recorded too, then stop). -/
def endPops (idx : Nat) : List Branch → List (Nat × Nat) →
    List Branch × List (Nat × Nat)
| [], out => ([], out)
| b :: rest, out =>
  if b.isDelvarValence || b.kind == BranchKind.elseK false then
    endPops idx rest (alInsert b.idx (idx + 1) out)
  else (rest, alInsert b.idx (idx + 1) out)

/-- The walk of `Program::block_failure_paths` over the enumerated lines.
`none` models the `panic!("Expected If statement body")` for an `If` on the
final line.  Returns the final open-branch stack together with the map (the
Rust function returns only the map and silently drops the stack). -/
def bfpGo : List (Nat × Statement) → List Branch → List (Nat × Nat) →
    Option (List Branch × List (Nat × Nat))
| [], stack, out => some (stack, out)
| (idx, line) :: rest, stack, out =>
  match delvarUnwrap line with
  | (Statement.controlFlow cf, isDelvar) =>
    match cf with
    | ControlFlow.whileS _ =>
      bfpGo rest (⟨BranchKind.skippableLoop, idx, isDelvar⟩ :: stack) out
    | ControlFlow.forS _ =>
      bfpGo rest (⟨BranchKind.skippableLoop, idx, isDelvar⟩ :: stack) out
    | ControlFlow.repeatS _ =>
      bfpGo rest (⟨BranchKind.unskippableLoop, idx, isDelvar⟩ :: stack) out
    | ControlFlow.ifS _ =>
      match rest with
      | (_, Statement.controlFlow ControlFlow.thenS) :: _ =>
        bfpGo rest (⟨BranchKind.ifThen, idx, isDelvar⟩ :: stack) out
      | _ :: _ => bfpGo rest stack out
      | [] => Option.none
    | ControlFlow.elseS =>
      let r := handleElse idx isDelvar stack out
      bfpGo rest r.1 r.2
    | ControlFlow.endS =>
      let r := endPops idx stack out
      bfpGo rest r.1 r.2
    | _ => bfpGo rest stack out
  | _ => bfpGo rest stack out

/-- `Program::block_failure_paths` with the final stack exposed: the still
open branches and the failure-path map. -/
def blockFailurePathsFull (p : List Statement) :
    Option (List Branch × List (Nat × Nat)) :=
  bfpGo (List.enumFrom 0 p) [] []

/-! ### Helper lemmas for the failure-path walk -/

theorem alLookup_alInsert_ne (k k1 v : Nat) (out : List (Nat × Nat))
    (h : k ≠ k1) : alLookup k (alInsert k1 v out) = alLookup k out := by
  induction out with
  | nil => simp [alInsert, alLookup, h]
  | cons q rest ih =>
    obtain ⟨qk, qv⟩ := q
    by_cases h1 : k1 < qk
    · simp [alInsert, if_pos h1, alLookup, h]
    · by_cases h2 : k1 = qk
      · subst h2
        simp [alInsert, if_neg h1, alLookup, h]
      · simp [alInsert, if_neg h1, if_neg h2, alLookup, ih]

theorem alLookup_none_of_lt (k : Nat) (out : List (Nat × Nat))
    (h : ∀ q ∈ out, q.1 < k) : alLookup k out = Option.none := by
  induction out with
  | nil => rfl
  | cons q rest ih =>
    obtain ⟨qk, qv⟩ := q
    have hq := h (qk, qv) (List.mem_cons_self _ _)
    simp only [alLookup]
    rw [if_neg (by simp at hq; omega)]
    exact ih (fun q2 hq2 => h q2 (List.mem_cons_of_mem _ hq2))

theorem alInsert_mem (k1 v : Nat) (out : List (Nat × Nat)) (q : Nat × Nat)
    (h : q ∈ alInsert k1 v out) : q = (k1, v) ∨ q ∈ out := by
  induction out with
  | nil => simpa [alInsert] using h
  | cons p rest ih =>
    obtain ⟨pk, pv⟩ := p
    by_cases h1 : k1 < pk
    · simp only [alInsert, if_pos h1] at h
      rcases List.mem_cons.mp h with h2 | h2
      · exact Or.inl h2
      · exact Or.inr h2
    · by_cases h2 : k1 = pk
      · simp only [alInsert, if_neg h1, if_pos h2] at h
        rcases List.mem_cons.mp h with h3 | h3
        · exact Or.inl h3
        · exact Or.inr (List.mem_cons_of_mem _ h3)
      · simp only [alInsert, if_neg h1, if_neg h2] at h
        rcases List.mem_cons.mp h with h3 | h3
        · exact Or.inr (h3 ▸ List.mem_cons_self _ _)
        · rcases ih h3 with h4 | h4
          · exact Or.inl h4
          · exact Or.inr (List.mem_cons_of_mem _ h4)

theorem rposFind_split (p : Branch → Bool) (l : List Branch) :
    ∀ (i : Nat) (b : Branch), rposFind p l = some (i, b) →
      ∃ pre post, l = pre ++ b :: post ∧ p b = true ∧
        (∀ x ∈ pre, p x = false) ∧ l.eraseIdx i = pre ++ post := by
  induction l with
  | nil => intro i b h; exact absurd h (by simp [rposFind])
  | cons x rest ih =>
    intro i b h
    by_cases hp : p x
    · simp only [rposFind, if_pos hp, Option.some.injEq, Prod.mk.injEq] at h
      obtain ⟨hi0, hxb⟩ := h
      subst hi0
      subst hxb
      exact ⟨[], rest, rfl, hp, by simp, by simp⟩
    · simp only [rposFind, if_neg hp] at h
      cases hr : rposFind p rest with
      | none => rw [hr] at h; exact absurd h (by simp)
      | some pr =>
        obtain ⟨j, b2⟩ := pr
        rw [hr] at h
        simp only [Option.map_some', Option.some.injEq, Prod.mk.injEq] at h
        obtain ⟨hi, hb⟩ := h
        subst hi
        subst hb
        obtain ⟨pre, post, hl, hpb, hpre, herase⟩ := ih j b2 hr
        refine ⟨x :: pre, post, by simp [hl], hpb, ?_, ?_⟩
        · intro y hy
          rcases List.mem_cons.mp hy with hy1 | hy1
          · rw [hy1]; simpa using hp
          · exact hpre y hy1
        · show (x :: rest).eraseIdx (j + 1) = x :: pre ++ post
          rw [List.eraseIdx_cons_succ, herase]
          simp

theorem endPops_spec (idx : Nat) (stack : List Branch) :
    ∀ (out : List (Nat × Nat)),
      stack.Pairwise (fun x y => y.idx < x.idx) →
      (∀ b ∈ stack, alLookup b.idx out = Option.none) →
      (∃ j, (endPops idx stack out).1 = stack.drop j) ∧
      (∀ q ∈ (endPops idx stack out).2, q ∈ out ∨ ∃ b ∈ stack, q.1 = b.idx) ∧
      (∀ b ∈ (endPops idx stack out).1,
        alLookup b.idx (endPops idx stack out).2 = Option.none) := by
  induction stack with
  | nil =>
    intro out _ _
    exact ⟨⟨0, rfl⟩, fun q hq => Or.inl hq, nofun⟩
  | cons b rest ih =>
    intro out hP hN
    have hPb : ∀ x ∈ rest, x.idx < b.idx := (List.pairwise_cons.mp hP).1
    have hPr := (List.pairwise_cons.mp hP).2
    have hNr : ∀ x ∈ rest,
        alLookup x.idx (alInsert b.idx (idx + 1) out) = Option.none := by
      intro x hx
      rw [alLookup_alInsert_ne _ _ _ _ (by have := hPb x hx; omega)]
      exact hN x (List.mem_cons_of_mem _ hx)
    by_cases hc : (b.isDelvarValence || b.kind == BranchKind.elseK false) = true
    · have heq : endPops idx (b :: rest) out =
          endPops idx rest (alInsert b.idx (idx + 1) out) := by
        simp only [endPops, hc, if_true]
      rw [heq]
      obtain ⟨⟨j, hj⟩, hkeys, hlook⟩ := ih (alInsert b.idx (idx + 1) out) hPr hNr
      refine ⟨⟨j + 1, by simpa using hj⟩, ?_, hlook⟩
      intro q hq
      rcases hkeys q hq with h1 | h2
      · rcases alInsert_mem _ _ _ _ h1 with h3 | h3
        · exact Or.inr ⟨b, List.mem_cons_self _ _, by rw [h3]⟩
        · exact Or.inl h3
      · obtain ⟨b2, hb2, hq2⟩ := h2
        exact Or.inr ⟨b2, List.mem_cons_of_mem _ hb2, hq2⟩
    · have heq : endPops idx (b :: rest) out =
          (rest, alInsert b.idx (idx + 1) out) := by
        simp only [endPops, hc, if_false]
        rfl
      rw [heq]
      refine ⟨⟨1, rfl⟩, ?_, ?_⟩
      · intro q hq
        rcases alInsert_mem _ _ _ _ hq with h3 | h3
        · exact Or.inr ⟨b, List.mem_cons_self _ _, by rw [h3]⟩
        · exact Or.inl h3
      · intro x hx
        exact hNr x hx

theorem handleElse_spec (idx : Nat) (isDelvar : Bool) (stack : List Branch)
    (out : List (Nat × Nat))
    (hP : stack.Pairwise (fun x y => y.idx < x.idx))
    (hN : ∀ b ∈ stack, alLookup b.idx out = Option.none)
    (hBS : ∀ b ∈ stack, b.idx < idx)
    (hBO : ∀ q ∈ out, q.1 < idx) :
    (handleElse idx isDelvar stack out).1.Pairwise (fun x y => y.idx < x.idx) ∧
    (∀ b ∈ (handleElse idx isDelvar stack out).1, b.idx = idx ∨ b ∈ stack) ∧
    (∀ q ∈ (handleElse idx isDelvar stack out).2,
      q ∈ out ∨ ∃ b ∈ stack, q.1 = b.idx) ∧
    (∀ b ∈ (handleElse idx isDelvar stack out).1,
      alLookup b.idx (handleElse idx isDelvar stack out).2 = Option.none) := by
  have hpush : ∀ (k : BranchKind) (d : Bool),
      ((⟨k, idx, d⟩ : Branch) :: stack).Pairwise (fun x y => y.idx < x.idx) ∧
      (∀ b ∈ (⟨k, idx, d⟩ : Branch) :: stack, b.idx = idx ∨ b ∈ stack) ∧
      (∀ q ∈ out, q ∈ out ∨ ∃ b ∈ stack, q.1 = b.idx) ∧
      (∀ b ∈ (⟨k, idx, d⟩ : Branch) :: stack,
        alLookup b.idx out = Option.none) := by
    intro k d
    refine ⟨List.pairwise_cons.mpr ⟨fun x hx => hBS x hx, hP⟩, ?_, fun q hq => Or.inl hq, ?_⟩
    · intro b hb
      rcases List.mem_cons.mp hb with h1 | h1
      · exact Or.inl (by rw [h1])
      · exact Or.inr h1
    · intro b hb
      rcases List.mem_cons.mp hb with h1 | h1
      · rw [h1]
        exact alLookup_none_of_lt _ _ hBO
      · exact hN b h1
  unfold handleElse
  cases hr : rposFind (fun x => !x.isDelvarValence) stack with
  | none => exact hpush (BranchKind.elseK false) isDelvar
  | some pr =>
    obtain ⟨i, b⟩ := pr
    by_cases hk : (b.kind == BranchKind.ifThen) = true
    · simp only [hk, if_true]
      cases hd : isDelvar with
      | true =>
        simp only [Bool.not_true, Bool.false_eq_true, if_false]
        exact hpush (BranchKind.elseK true) true
      | false =>
        simp only [Bool.not_false, if_true]
        obtain ⟨pre, post, hl, hpb, hpre, herase⟩ := rposFind_split _ _ i b hr
        rw [herase]
        have hbmem : b ∈ stack := by
          rw [hl]; exact List.mem_append_right _ (List.mem_cons_self _ _)
        have hmem_sub : ∀ x ∈ pre ++ post, x ∈ stack := by
          intro x hx
          rw [hl]
          rcases List.mem_append.mp hx with h1 | h1
          · exact List.mem_append_left _ h1
          · exact List.mem_append_right _ (List.mem_cons_of_mem _ h1)
        have hPsplit := List.pairwise_append.mp (hl ▸ hP)
        obtain ⟨hPpre, hPbpost, hcross⟩ := hPsplit
        have hne : ∀ x ∈ pre ++ post, x.idx ≠ b.idx := by
          intro x hx
          rcases List.mem_append.mp hx with h1 | h1
          · have := hcross x h1 b (List.mem_cons_self _ _)
            omega
          · have := (List.pairwise_cons.mp hPbpost).1 x h1
            omega
        have hbidx : b.idx < idx := hBS b hbmem
        refine ⟨?_, ?_, ?_, ?_⟩
        · refine List.pairwise_cons.mpr ⟨?_, ?_⟩
          · intro x hx
            exact hBS x (hmem_sub x hx)
          · refine List.pairwise_append.mpr
              ⟨hPpre, (List.pairwise_cons.mp hPbpost).2, ?_⟩
            intro a ha y hy
            exact hcross a ha y (List.mem_cons_of_mem _ hy)
        · intro x hx
          rcases List.mem_cons.mp hx with h1 | h1
          · exact Or.inl (by rw [h1])
          · exact Or.inr (hmem_sub x h1)
        · intro q hq
          rcases alInsert_mem _ _ _ _ hq with h1 | h1
          · exact Or.inr ⟨b, hbmem, by rw [h1]⟩
          · exact Or.inl h1
        · intro x hx
          rcases List.mem_cons.mp hx with h1 | h1
          · rw [h1]
            show alLookup idx (alInsert b.idx (idx + 1) out) = Option.none
            rw [alLookup_alInsert_ne _ _ _ _ (by omega)]
            exact alLookup_none_of_lt _ _ hBO
          · rw [alLookup_alInsert_ne _ _ _ _ (hne x h1)]
            exact hN x (hmem_sub x h1)
    · simp only [hk, if_false]
      exact hpush (BranchKind.elseK false) isDelvar

theorem bfpGo_inv (p : List Statement) :
    ∀ (n : Nat) (stack : List Branch) (out : List (Nat × Nat)),
      (∀ b ∈ stack, b.idx < n) →
      (∀ q ∈ out, q.1 < n) →
      stack.Pairwise (fun x y => y.idx < x.idx) →
      (∀ b ∈ stack, alLookup b.idx out = Option.none) →
      ∀ st2 out2, bfpGo (List.enumFrom n p) stack out = some (st2, out2) →
      ∀ b ∈ st2, alLookup b.idx out2 = Option.none := by
  induction p with
  | nil =>
    intro n stack out hS hO hP hN st2 out2 hgo
    simp only [List.enumFrom, bfpGo, Option.some.injEq, Prod.mk.injEq] at hgo
    obtain ⟨h1, h2⟩ := hgo
    subst h1
    subst h2
    exact hN
  | cons line tail ih =>
    intro n stack out hS hO hP hN st2 out2 hgo
    simp only [List.enumFrom] at hgo
    simp only [bfpGo] at hgo
    rcases hdv : delvarUnwrap line with ⟨command, isDelvar⟩
    rw [hdv] at hgo
    have hmono : bfpGo (List.enumFrom (n + 1) tail) stack out = some (st2, out2) →
        ∀ b ∈ st2, alLookup b.idx out2 = Option.none :=
      fun h => ih (n + 1) stack out (fun b hb => Nat.lt_succ_of_lt (hS b hb))
        (fun q hq => Nat.lt_succ_of_lt (hO q hq)) hP hN st2 out2 h
    have hpushcase : ∀ (k : BranchKind) (d : Bool),
        bfpGo (List.enumFrom (n + 1) tail) (⟨k, n, d⟩ :: stack) out =
          some (st2, out2) →
        ∀ b ∈ st2, alLookup b.idx out2 = Option.none := by
      intro k d h
      refine ih (n + 1) (⟨k, n, d⟩ :: stack) out ?_ ?_ ?_ ?_ st2 out2 h
      · intro b hb
        rcases List.mem_cons.mp hb with h1 | h1
        · rw [h1]; show n < n + 1; omega
        · have := hS b h1; omega
      · intro q hq
        have := hO q hq; omega
      · exact List.pairwise_cons.mpr ⟨fun x hx => hS x hx, hP⟩
      · intro b hb
        rcases List.mem_cons.mp hb with h1 | h1
        · rw [h1]
          exact alLookup_none_of_lt _ _ hO
        · exact hN b h1
    cases command with
    | controlFlow cf =>
      cases cf with
      | whileS cond => exact hpushcase BranchKind.skippableLoop isDelvar hgo
      | forS f => exact hpushcase BranchKind.skippableLoop isDelvar hgo
      | repeatS cond => exact hpushcase BranchKind.unskippableLoop isDelvar hgo
      | ifS cond =>
        cases tail with
        | nil => simp [List.enumFrom] at hgo
        | cons t ts =>
          simp only [List.enumFrom] at hgo
          split at hgo
          · exact hpushcase BranchKind.ifThen isDelvar hgo
          · exact hmono hgo
          · simp at hgo
      | elseS =>
        obtain ⟨hsp1, hsp2, hsp3, hsp4⟩ :=
          handleElse_spec n isDelvar stack out hP hN hS hO
        refine ih (n + 1) (handleElse n isDelvar stack out).1
          (handleElse n isDelvar stack out).2 ?_ ?_ hsp1 hsp4 st2 out2 hgo
        · intro b hb
          rcases hsp2 b hb with h1 | h1
          · omega
          · have := hS b h1; omega
        · intro q hq
          rcases hsp3 q hq with h1 | ⟨b2, hb2, hq2⟩
          · have := hO q h1; omega
          · have := hS b2 hb2; omega
      | endS =>
        obtain ⟨⟨j, hj⟩, hkeys, hlook⟩ := endPops_spec n stack out hP hN
        refine ih (n + 1) (endPops n stack out).1 (endPops n stack out).2
          ?_ ?_ ?_ hlook st2 out2 hgo
        · intro b hb
          rw [hj] at hb
          have := hS b (List.mem_of_mem_drop hb); omega
        · intro q hq
          rcases hkeys q hq with h1 | ⟨b2, hb2, hq2⟩
          · have := hO q h1; omega
          · have := hS b2 hb2; omega
        · rw [hj]
          exact hP.sublist (List.drop_sublist j stack)
      | thenS => exact hmono hgo
      | returnS => exact hmono hgo
      | lbl l => exact hmono hgo
      | goto l => exact hmono hgo
      | stop => exact hmono hgo
      | isGt x => exact hmono hgo
      | dsLt x => exact hmono hgo
      | menu m => exact hmono hgo
    | none => exact hmono hgo
    | generic => exact hmono hgo
    | delVarChain d => exact hmono hgo
    | setUpEditor => exact hmono hgo
    | expr e => exact hmono hgo
    | store e => exact hmono hgo
    | programInvocation => exact hmono hgo
    | fiction s => exact hmono hgo

/-! ### Claim theorems: C7 -/

/-- A one-line program whose single `While` never meets an `End`: the line
is an EOF abuser. -/
def pgm7 : List Statement :=
  [Statement.controlFlow (ControlFlow.whileS
    (Expression.operand (Operand.numericVarName (Token.oneByte 0x58))))]

/-- C7 counterexample: on `pgm7` (program length 1) the walk ends with the
`While` of line 0 still open, yet the failure-path map is empty — the claim
would require the entry `0 ↦ 1`. -/
theorem eof_abuser_dropped_cx :
    blockFailurePathsFull pgm7 =
      some ([⟨BranchKind.skippableLoop, 0, false⟩], []) ∧
    alLookup 0 ([] : List (Nat × Nat)) ≠ some 1 := by
  constructor
  · rfl
  · decide

/-- C7 (amended): a block opener that is still open at the end of the
program (an EOF abuser) is assigned *no* failure path at all: the
block-failure-path map contains no entry for its line. -/
theorem eof_abusers_have_no_failure_path (p : List Statement)
    (st2 : List Branch) (out2 : List (Nat × Nat))
    (h : blockFailurePathsFull p = some (st2, out2)) :
    ∀ b ∈ st2, alLookup b.idx out2 = Option.none :=
  bfpGo_inv p 0 [] [] (by intro b hb; exact absurd hb (List.not_mem_nil b))
    (by intro q hq; exact absurd hq (List.not_mem_nil q)) List.Pairwise.nil
    (by intro b hb; exact absurd hb (List.not_mem_nil b)) st2 out2 h

/-- Witness for `eof_abusers_have_no_failure_path` at `pgm7`. -/
theorem eof_abusers_have_no_failure_path_witness :
    blockFailurePathsFull pgm7 =
      some ([⟨BranchKind.skippableLoop, 0, false⟩], []) ∧
    alLookup 0 ([] : List (Nat × Nat)) = Option.none :=
  ⟨rfl,
   eof_abusers_have_no_failure_path pgm7 [⟨BranchKind.skippableLoop, 0, false⟩]
     [] rfl ⟨BranchKind.skippableLoop, 0, false⟩ (List.mem_singleton.mpr rfl)⟩

end Tibo
